import Mathlib

/-!
Verification development for the osmem memory allocator
(src/src/osmem.c, src/utils/osmem.h).

The allocator manages two intrusive doubly linked lists of block headers
(a used list and a free list), a program break, and anonymous mappings.
We embed the metadata level of the program: each header is a record of
its address, its stored payload size and its status field, and the two
C lists become Lean lists of such records in the same node order.
Payload bytes (memset loops and the copy loops of realloc) carry no
metadata and are not modelled.  The OS collaborators are modelled as
always succeeding: sbrk moves the break field of the state, mmap places
a fresh header at an address given by an oracle argument, munmap drops
that header.  A C execution that dereferences a null pointer or a dead
header has no defined successor state; such calls return none.
-/

set_option autoImplicit false

/-- Status tag of a block header: STATUS_FREE, STATUS_ALLOC, STATUS_MAPPED. -/
inductive Status where
  | free
  | alloc
  | mapped
deriving DecidableEq, Repr

/-- Modelled from the spec: block_meta.h is not under src/.  Per spec section 3
the header stores a payload size, a status tag and two list links; the links
are represented by the position of the record inside the Lean lists below, so
a header record keeps its address, its size field and its status field. -/
structure Block where
  addr : Nat
  size : Nat
  status : Status
deriving DecidableEq, Repr

/-- Modelled from the spec: METADATA_SIZE is sizeof(struct block_meta), a
compile time constant the spec calls H and requires to be a multiple of 8.
On the LP64 layout of \x7bsize_t; int; two pointers\x7d it is 32 bytes. -/
def METADATA_SIZE : Nat := 32

/-- MULT_KB from osmem.h line 17. -/
def MULT_KB : Nat := 1024

/-- MMAP_THRESHOLD from osmem.h line 13: 128 * 1024 bytes. -/
def MMAP_THRESHOLD : Nat := 128 * 1024

/-- Modelled from the spec: getpagesize() is the page-size query collaborator
of section 6; the os_calloc threshold.  Fixed at the common value 4096. -/
def PAGE_SIZE : Nat := 4096

/-- Allocator state: the used list, the free list (in node order, heads
first), the headers of the live anonymous mappings, and the program break.
The two lists model used_blocks and free_blocks of osmem.c lines 11-13. -/
structure AllocState where
  used : List Block
  free : List Block
  mapped : List Block
  brk : Nat
deriving DecidableEq, Repr

/-- Initial state: both list heads are null, no mappings, and the break
starts at a page aligned position (4096 in the model). -/
def initState : AllocState := ⟨[], [], [], 4096⟩

/-- calculate_padding, osmem.c lines 15-21. -/
def calculate_padding (size : Nat) : Nat :=
  let padding := 8 - size % 8
  if padding = 8 then 0 else padding

/-- Unsigned 64-bit subtraction: C size_t arithmetic wraps modulo 2^64.
Callers pass values below 2^64. -/
def sub64 (x y : Nat) : Nat := (2 ^ 64 + x - y) % 2 ^ 64

/-- Conversion of a size_t product to int, as in os_calloc line 373:
the value is reduced modulo 2^32 and read as a signed 32-bit integer. -/
def toInt32 (n : Nat) : Int :=
  if n % 2 ^ 32 < 2 ^ 31 then ((n % 2 ^ 32 : Nat) : Int)
  else ((n % 2 ^ 32 : Nat) : Int) - 2 ^ 32

/-- Conversion of a signed value back to size_t (two's complement mod 2^64),
applied wherever os_calloc uses its int total_size in a size_t context. -/
def toSizeT (i : Int) : Nat := (i % 2 ^ 64).toNat

/-- Value of int total_size = nmemb * size (os_calloc line 373) when read
back in the size_t contexts of the rest of the function. -/
def callocTotal (nmemb size : Nat) : Nat := toSizeT (toInt32 (nmemb * size))

/-- Memory lookup of the header stored at address a: the live headers are
exactly the members of the used list, the free list and the mapped set. -/
def findBlock (a : Nat) (s : AllocState) : Option Block :=
  (s.used ++ s.free ++ s.mapped).find? (fun b => b.addr == a)

/-- remove_block, osmem.c lines 37-59, applied to the node at address a of
one list: unlink the node.  (remove_block touches only the list that holds
the node; the caller picks the list.) -/
def eraseBlock (a : Nat) (l : List Block) : List Block :=
  l.eraseP (fun b => b.addr == a)

/-- Node walk of find_place_brk, osmem.c lines 147-160: walk the free list,
stop at the first block whose size is at least the request, unlink it and
return it.  When no block fits the walk ends at null and remove_block is a
no-op. -/
def find_place_brk (size : Nat) : List Block → Option Block × List Block
  | [] => (none, [])
  | b :: rest =>
    if size ≤ b.size then (some b, rest)
    else
      let r := find_place_brk size rest
      (r.1, b :: r.2)

/-- Walk of add_used_block, osmem.c lines 171-187: advance curr while the
successor exists and its address is not greater than the new block, then
splice the new block after curr.  (There is no insert-before-head case in
the source.) -/
def add_used_block_go (b : Block) : Block → List Block → List Block
  | curr, [] => [curr, b]
  | curr, next :: rest =>
    if b.addr < next.addr then curr :: b :: next :: rest
    else curr :: add_used_block_go b next rest

/-- add_used_block, osmem.c lines 162-188: status is set to STATUS_ALLOC
(line 164) and the block is spliced into the used list. -/
def add_used_block (b : Block) (l : List Block) : List Block :=
  let b := { b with status := Status.alloc }
  match l with
  | [] => [b]
  | h :: t => add_used_block_go b h t

/-- Walk of add_free_block, osmem.c lines 199-229: advance curr while the
successor exists and its address is not greater than the new block; then
splice after curr when curr has the lower address, and before curr
otherwise (updating the head when curr was the head). -/
def add_free_block_go (b : Block) : Block → List Block → List Block
  | curr, [] =>
    if curr.addr < b.addr then [curr, b] else [b, curr]
  | curr, next :: rest =>
    if b.addr < next.addr then
      if curr.addr < b.addr then curr :: b :: next :: rest
      else b :: curr :: next :: rest
    else curr :: add_free_block_go b next rest

/-- add_free_block, osmem.c lines 190-230: status is set to STATUS_FREE
(line 191) and the block is spliced into the free list in address order. -/
def add_free_block (b : Block) (l : List Block) : List Block :=
  let b := { b with status := Status.free }
  match l with
  | [] => [b]
  | h :: t => add_free_block_go b h t

/-- Loop of coalesce_free_blocks, osmem.c lines 135-144, with curr as first
argument: when curr touches its successor (curr + METADATA_SIZE + curr.size
equals the successor address) the successor is absorbed and the walk stays
at curr; otherwise the walk advances. -/
def coalesce_go : Block → List Block → List Block
  | a, [] => [a]
  | a, b :: rest =>
    if a.addr + a.size + METADATA_SIZE = b.addr then
      coalesce_go { a with size := a.size + b.size + METADATA_SIZE } rest
    else
      a :: coalesce_go b rest

/-- coalesce_free_blocks, osmem.c lines 132-145.  The source dereferences
the list head unconditionally; it is only called with a nonempty free list
(os_free runs it right after an insertion), and on the empty list the model
returns the empty list. -/
def coalesce_free_blocks (l : List Block) : List Block :=
  match l with
  | [] => []
  | a :: t => coalesce_go a t

/-- Walk of get_next_block, osmem.c lines 82-84 and 92-94: advance while a
successor exists and the current address is not greater than x; so the
result is the first node with address greater than x, or the last node. -/
def walk_ge_go (x : Nat) : Block → List Block → Block
  | b, [] => b
  | b, c :: rest => if b.addr ≤ x then walk_ge_go x c rest else b

/-- Same walk starting from a possibly null head. -/
def walk_ge (x : Nat) : List Block → Option Block
  | [] => none
  | b :: t => some (walk_ge_go x b t)

/-- Walk of reuse_block_brk, osmem.c lines 242-244: advance while a
successor exists and the current address is less than x. -/
def walk_lt_go (x : Nat) : Block → List Block → Block
  | b, [] => b
  | b, c :: rest => if b.addr < x then walk_lt_go x c rest else b

/-- get_next_block, osmem.c lines 79-130 (diagnostic prints dropped): walk
both lists past the block at address x; return null only when both lists
are empty, the sole candidate when one list yields one, and otherwise
reproduce the comparison cascade of lines 103-129, which returns the free
candidate when the used candidate is not past x, the used candidate when
only the free candidate is not past x, and the lower of the two otherwise. -/
def get_next_block (x : Nat) (s : AllocState) : Option Block :=
  match s.free with
  | [] => walk_ge x s.used
  | f :: ft =>
    let lfb := walk_ge_go x f ft
    match walk_ge x s.used with
    | none => some lfb
    | some lub =>
      if lub.addr ≤ x then some lfb
      else if lfb.addr ≤ x then some lub
      else if lub.addr < lfb.addr then some lub
      else some lfb

/-- prealloc_heap, osmem.c lines 23-35: grow the break by 128 KiB and make
the whole extension the single free block (its list links null). -/
def prealloc_heap (s : AllocState) : AllocState :=
  { s with free := [⟨s.brk, 128 * MULT_KB - METADATA_SIZE, Status.free⟩],
           brk := s.brk + 128 * MULT_KB }

/-- Guarded pre-allocation of os_malloc line 303 and os_calloc line 380:
run prealloc_heap when both list heads are null. -/
def preHeap (s : AllocState) : AllocState :=
  if s.used = [] ∧ s.free = [] then prealloc_heap s else s

/-- Result of reuse_block_brk: ub when the source dereferences a null list
head (free list or used list empty), noFit for the return value (void*)-1,
ok for a successful expansion. -/
inductive ReuseResult where
  | ub
  | noFit
  | ok (addr : Nat) (s : AllocState)
deriving DecidableEq, Repr

/-- reuse_block_brk, osmem.c lines 234-271.  curr is the last free block;
last_used_block is the walk of lines 242-244.  When curr lies below
last_used_block, free_memory is the pointer difference (in units of
sizeof(struct block_meta)) minus METADATA_SIZE (line 250), and the block
is expanded in place only when size_to_add + padding fits under it (the
break is not moved); otherwise (void*)-1.  When curr is the last heap
region, the break grows by size_to_add + padding and curr becomes the
allocated block (lines 265-270).  The padding of line 247 is computed from
the address curr + size. -/
def reuse_block_brk (size : Nat) (s : AllocState) : ReuseResult :=
  match s.free.getLast?, s.used with
  | none, _ => ReuseResult.ub
  | some _, [] => ReuseResult.ub
  | some curr, u :: ut =>
    let last_used_block := walk_lt_go curr.addr u ut
    let size_to_add := sub64 size curr.size
    let payload_padding := calculate_padding (curr.addr + size)
    if curr.addr < last_used_block.addr then
      let free_memory : Int :=
        ((last_used_block.addr - curr.addr) / METADATA_SIZE : Nat) - (METADATA_SIZE : Int)
      if ((size_to_add + payload_padding : Nat) : Int) < free_memory then
        ReuseResult.ok curr.addr
          { s with free := eraseBlock curr.addr s.free,
                   used := add_used_block { curr with size := size + payload_padding } s.used }
      else ReuseResult.noFit
    else
      ReuseResult.ok curr.addr
        { s with brk := s.brk + (size_to_add + payload_padding),
                 free := eraseBlock curr.addr s.free,
                 used := add_used_block { curr with size := size + payload_padding } s.used }

/-- Fresh extension of increase_brk, osmem.c lines 280-292: grow the break
by METADATA_SIZE + size + padding, set up the allocated header at the old
break, insert it into the used list. -/
def fresh_extension (size : Nat) (s : AllocState) : Nat × AllocState :=
  let payload_padding := calculate_padding size
  (s.brk,
    { s with used := add_used_block ⟨s.brk, size + payload_padding, Status.alloc⟩ s.used,
             brk := s.brk + (METADATA_SIZE + size + payload_padding) })

/-- increase_brk, osmem.c lines 273-293: try reuse_block_brk when the free
list is nonempty; fall through to the fresh extension when it returns
(void*)-1. -/
def increase_brk (size : Nat) (s : AllocState) : Option (Nat × AllocState) :=
  match s.free with
  | [] => some (fresh_extension size s)
  | _ :: _ =>
    match reuse_block_brk size s with
    | ReuseResult.ub => none
    | ReuseResult.ok a s' => some (a, s')
    | ReuseResult.noFit => some (fresh_extension size s)

/-- Program-break service path shared verbatim by os_malloc lines 303-341
and os_calloc lines 380-422 (the calloc copy substitutes total_size for
size): pre-allocate on first use, search the free list, on failure extend
the break, on success split when the remainder holds a header plus one
byte (new_free_block_size is computed as a C long, so a signed value).
The split header address is base + METADATA_SIZE + size rounded up to the
next multiple of 8 (padding of the address, lines 319-324). -/
def heap_service (size : Nat) (s : AllocState) : Option (Nat × AllocState) :=
  let s0 := preHeap s
  match find_place_brk size s0.free with
  | (none, _) => increase_brk size s0
  | (some fb, free1) =>
    let addr0 := fb.addr + METADATA_SIZE + size
    let payload_padding := calculate_padding addr0
    let nfs : Int := (fb.size : Int) - size - payload_padding
    if (METADATA_SIZE : Int) + 1 ≤ nfs then
      some (fb.addr,
        { s0 with
          free := add_free_block
                    ⟨addr0 + payload_padding, (nfs - METADATA_SIZE).toNat, Status.free⟩ free1,
          used := add_used_block ⟨fb.addr, size + payload_padding, Status.alloc⟩ s0.used })
    else
      some (fb.addr,
        { s0 with free := free1,
                  used := add_used_block ⟨fb.addr, fb.size, Status.alloc⟩ s0.used })

/-- Mapping service path shared by os_malloc lines 343-351 and os_calloc
lines 424-432: a fresh anonymous mapping at oracle address a; the header
stores the unpadded request and STATUS_MAPPED and joins no list. -/
def mmap_service (a size : Nat) (s : AllocState) : Nat × AllocState :=
  (a, { s with mapped := ⟨a, size, Status.mapped⟩ :: s.mapped })

/-- os_malloc, osmem.c lines 296-354.  a is the mmap oracle address.  The
routing guard size + METADATA_SIZE < MMAP_THRESHOLD of line 302 is size_t
arithmetic, so the sum wraps modulo 2^64.  The returned payload pointer is
the serviced header address plus METADATA_SIZE. -/
def os_malloc (a size : Nat) (s : AllocState) : Option (Option Nat × AllocState) :=
  if size = 0 then some (none, s)
  else if (size + METADATA_SIZE) % 2 ^ 64 < MMAP_THRESHOLD then
    (heap_service size s).map (fun r => (some (r.1 + METADATA_SIZE), r.2))
  else
    let r := mmap_service a size s
    some (some (r.1 + METADATA_SIZE), r.2)

/-- os_free, osmem.c lines 356-370: null is a no-op; an ALLOCATED header is
unlinked from the used list, inserted into the free list and one coalesce
pass runs; a MAPPED header is unmapped.  Any other pointer (no live header
or a FREE header, whose munmap would tear heap pages out) is undefined
behaviour and has no successor state. -/
def os_free (p : Nat) (s : AllocState) : Option AllocState :=
  if p = 0 then some s
  else
    match findBlock (p - METADATA_SIZE) s with
    | none => none
    | some blk =>
      if blk.status = Status.alloc then
        some { s with used := eraseBlock blk.addr s.used,
                      free := coalesce_free_blocks (add_free_block blk s.free) }
      else if blk.status = Status.mapped then
        some { s with mapped := eraseBlock blk.addr s.mapped }
      else none

/-- os_calloc, osmem.c lines 372-442: int total_size = nmemb * size; null
when it is zero; page size instead of MMAP_THRESHOLD as the routing
threshold, with the size_t sum total_size + METADATA_SIZE of line 379
wrapping modulo 2^64; otherwise the shared heap and mapping paths with
total_size in every size_t position.  The zero-fill loops write payload
bytes only and are outside the metadata model. -/
def os_calloc (a nmemb size : Nat) (s : AllocState) : Option (Option Nat × AllocState) :=
  let total := callocTotal nmemb size
  if total = 0 then some (none, s)
  else if (total + METADATA_SIZE) % 2 ^ 64 < PAGE_SIZE then
    (heap_service total s).map (fun r => (some (r.1 + METADATA_SIZE), r.2))
  else
    let r := mmap_service a total s
    some (some (r.1 + METADATA_SIZE), r.2)

/-- Heap tail of os_realloc, osmem.c lines 497-601, reached for an
ALLOCATED header whose stored size differs from size + padding.
Branch order as in the source: shrink in place with a tail split only when
remaining_size (size_t arithmetic) exceeds METADATA_SIZE + 1; grow into a
gap below the next block; extend the break when the block is its own next
block; absorb a FREE next block, splitting when free_size (a long,
computed on line 564 without any METADATA_SIZE term) exceeds
METADATA_SIZE + 1 and folding the leftover in otherwise — the source
inserts the remainder while next is still linked and unlinks next
afterwards, which with distinct addresses equals unlinking next first;
otherwise allocate fresh, copy, free old. -/
def realloc_heap_tail (a p size : Nat) (s : AllocState) (blk : Block) :
    Option (Option Nat × AllocState) :=
  let payload_padding := calculate_padding size
  let remaining_size := sub64 (sub64 blk.size size) payload_padding
  if size < blk.size then
    if METADATA_SIZE + 1 < remaining_size then
      some (some p,
        { s with
          used := s.used.map (fun b => if b.addr = blk.addr
                                       then { b with size := size + payload_padding } else b),
          free := add_free_block
                    ⟨blk.addr + METADATA_SIZE + size + payload_padding,
                     remaining_size - METADATA_SIZE, Status.free⟩ s.free })
    else some (some p, s)
  else
    match get_next_block blk.addr s with
    | none => none
    | some nb =>
      if blk.addr + METADATA_SIZE + size + payload_padding < nb.addr then
        some (some p,
          { s with used := s.used.map (fun b => if b.addr = blk.addr
                                                then { b with size := size + payload_padding } else b) })
      else if blk.addr = nb.addr then
        some (some p,
          { s with
            used := s.used.map (fun b => if b.addr = blk.addr
                                         then { b with size := size + payload_padding } else b),
            brk := s.brk + sub64 (size + payload_padding) blk.size })
      else if nb.status = Status.free ∧
              blk.addr + METADATA_SIZE + size + payload_padding
                ≤ nb.addr + METADATA_SIZE + nb.size then
        let free_size : Int :=
          (nb.addr : Int) + nb.size - blk.addr - size - payload_padding
        if (METADATA_SIZE : Int) + 1 < free_size then
          some (some p,
            { s with
              used := s.used.map (fun b => if b.addr = blk.addr
                                           then { b with size := size + payload_padding } else b),
              free := add_free_block
                        ⟨blk.addr + METADATA_SIZE + size + payload_padding,
                         (free_size - METADATA_SIZE).toNat, Status.free⟩
                        (eraseBlock nb.addr s.free) })
        else
          some (some p,
            { s with
              used := s.used.map (fun b => if b.addr = blk.addr
                                           then { b with size := size + payload_padding + free_size.toNat } else b),
              free := eraseBlock nb.addr s.free })
      else
        match os_malloc a size s with
        | none => none
        | some (np, s1) => (os_free p s1).map (fun s2 => (np, s2))

/-- os_realloc, osmem.c lines 444-602 (diagnostic prints dropped): null
pointer delegates to os_malloc; size zero delegates to os_free and returns
null; a FREE header fails with null and no state change; a stored size
equal to size + padding is a no-op; a MAPPED header is relocated through
os_malloc, payload copy and os_free; an ALLOCATED header runs the heap
tail. -/
def os_realloc (a p size : Nat) (s : AllocState) : Option (Option Nat × AllocState) :=
  if p = 0 then os_malloc a size s
  else if size = 0 then (os_free p s).map (fun s' => (none, s'))
  else
    match findBlock (p - METADATA_SIZE) s with
    | none => none
    | some blk =>
      if blk.status = Status.free then some (none, s)
      else if blk.size = size + calculate_padding size then some (some p, s)
      else if blk.status = Status.mapped then
        match os_malloc a size s with
        | none => none
        | some (np, s1) => (os_free p s1).map (fun s2 => (np, s2))
      else realloc_heap_tail a p size s blk

/-- Sum of payload sizes plus one header per block over a free list: the
total free capacity of spec section 8. -/
def freeCapacity (l : List Block) : Nat :=
  (l.map (fun b => b.size + METADATA_SIZE)).sum

/-- Consecutive free-list entries leave room for one another:
a.addr + METADATA_SIZE + a.size ≤ b.addr for each adjacent pair.  This is
the spatial well-formedness of a free list in address order. -/
def wellSpaced : List Block → Bool
  | [] => true
  | [_] => true
  | a :: b :: rest =>
    decide (a.addr + METADATA_SIZE + a.size ≤ b.addr) && wellSpaced (b :: rest)

/-- Strict version: consecutive entries are separated by at least one byte
beyond the first footprint, so no adjacent pair is contiguous. -/
def strictSpaced : List Block → Prop
  | [] => True
  | [_] => True
  | a :: b :: rest =>
    a.addr + METADATA_SIZE + a.size < b.addr ∧ strictSpaced (b :: rest)

/-- Well-formed block for the reachability invariant: header address and
stored size are multiples of 8 and the address lies at or above the
initial break. -/
def GoodBlock (b : Block) : Prop := 8 ∣ b.addr ∧ 8 ∣ b.size ∧ 4096 ≤ b.addr

/-- State invariant preserved by every public operation: heap blocks are
well formed with the status field matching their list, mapped headers are
8-aligned (their stored size is the unpadded request), and the break is
8-aligned and at or above its initial position. -/
def StateInv (s : AllocState) : Prop :=
  (∀ b ∈ s.used, GoodBlock b ∧ b.status = Status.alloc) ∧
  (∀ b ∈ s.free, GoodBlock b ∧ b.status = Status.free) ∧
  (∀ b ∈ s.mapped, 8 ∣ b.addr ∧ 4096 ≤ b.addr ∧ b.status = Status.mapped) ∧
  8 ∣ s.brk ∧ 4096 ≤ s.brk

/-- States reachable by legal sequences of public calls from the initial
state.  The mmap oracle address of each allocating call is page aligned
(8 divides it), beyond the initial break, and fresh (the OS never returns
a region overlapping a live header).  Request sizes are genuine size_t
values small enough that the pointer arithmetic of the source cannot wrap
(at most 2^60).  Calls whose C execution has undefined behaviour produce
no state, so they do not extend reachability. -/
inductive Reachable : AllocState → Prop where
  | init : Reachable initState
  | malloc (s s' : AllocState) (a n : Nat) (r : Option Nat) :
      Reachable s → 8 ∣ a → 4096 ≤ a →
      (∀ b ∈ s.used ++ s.free ++ s.mapped, b.addr ≠ a) →
      n ≤ 2 ^ 60 →
      os_malloc a n s = some (r, s') → Reachable s'
  | free (s s' : AllocState) (p : Nat) :
      Reachable s → os_free p s = some s' → Reachable s'
  | calloc (s s' : AllocState) (a m k : Nat) (r : Option Nat) :
      Reachable s → 8 ∣ a → 4096 ≤ a →
      (∀ b ∈ s.used ++ s.free ++ s.mapped, b.addr ≠ a) →
      os_calloc a m k s = some (r, s') → Reachable s'
  | realloc (s s' : AllocState) (a p n : Nat) (r : Option Nat) :
      Reachable s → 8 ∣ a → 4096 ≤ a →
      (∀ b ∈ s.used ++ s.free ++ s.mapped, b.addr ≠ a) →
      n ≤ 2 ^ 60 →
      os_realloc a p n s = some (r, s') → Reachable s'

/-- Demonstration run: a request one byte below the routing boundary,
serviced from a fresh allocator. -/
def c3run : Option Nat × AllocState :=
  (os_malloc 8192 131039 initState).getD (none, initState)

/-- Demonstration state with one free heap block, for exercising the
resize edge cases. -/
def reallocEdgeState : AllocState := ⟨[], [⟨4096, 64, Status.free⟩], [], 4176⟩

/-- Demonstration state with one allocated heap block, for exercising the
shrink-in-place path of resize. -/
def shrinkState : AllocState := ⟨[⟨4096, 48, Status.alloc⟩], [], [], 4176⟩

/-- Demonstration state with one allocated block sitting right above one
free block, for exercising the coalescing pass of release. -/
def freeDemoState : AllocState :=
  ⟨[⟨4136, 8, Status.alloc⟩], [⟨4096, 8, Status.free⟩], [], 4176⟩

/-- State observer: the state after an os_malloc call (the call itself when
defined, the input state as a default otherwise). -/
def afterMalloc (a n : Nat) (s : AllocState) : AllocState :=
  ((os_malloc a n s).getD (none, s)).2

/-- State observer: the state after an os_free call. -/
def afterFree (p : Nat) (s : AllocState) : AllocState :=
  (os_free p s).getD s

/-- Demonstration run for the capacity round trip: a first request of
131032 bytes takes the whole pre-allocated block without a split and
leaves the free list empty. -/
def c8s1 : AllocState := afterMalloc 4096 131032 initState

/-- Second step of the demonstration run: a request of 100 bytes now finds
no free block and extends the program break. -/
def c8s2 : AllocState := afterMalloc 4096 100 c8s1

/-- Third step: releasing the 100-byte allocation. -/
def c8s3 : AllocState := afterFree 135200 c8s2

/-! ### Arithmetic helpers -/

theorem calculate_padding_lt (s : Nat) : calculate_padding s < 8 := by
  simp only [calculate_padding]
  split <;> omega

theorem dvd_add_calculate_padding (s : Nat) : 8 ∣ (s + calculate_padding s) := by
  simp only [calculate_padding]
  split <;> omega

theorem calculate_padding_add_left (a s : Nat) (h : 8 ∣ a) :
    calculate_padding (a + s) = calculate_padding s := by
  simp only [calculate_padding]
  split <;> split <;> omega

theorem calculate_padding_of_dvd (s : Nat) (h : 8 ∣ s) : calculate_padding s = 0 := by
  simp only [calculate_padding]
  split <;> omega

theorem sub64_exact (x y : Nat) (h : y ≤ x) (hx : x - y < 2 ^ 64) : sub64 x y = x - y := by
  simp only [sub64]
  omega

theorem sub64_mod8 (x y : Nat) (hx : 8 ∣ x) (hy : 8 ∣ y) (h : y ≤ 2 ^ 64 + x) :
    8 ∣ sub64 x y := by
  simp only [sub64]
  omega

/-! ### find_place_brk: first-fit characterisation -/

theorem find_place_brk_none (n : Nat) (l : List Block) :
    (find_place_brk n l).1 = none ↔ ∀ b ∈ l, b.size < n := by
  induction l with
  | nil => simp [find_place_brk]
  | cons b rest ih =>
    by_cases h : n ≤ b.size
    · simp only [find_place_brk, if_pos h]
      constructor
      · intro hc; simp at hc
      · intro hall
        have := hall b (List.mem_cons_self b rest)
        omega
    · simp only [find_place_brk, if_neg h]
      constructor
      · intro hn x hx
        rcases List.mem_cons.mp hx with hx | hx
        · subst hx; omega
        · exact (ih.mp hn) x hx
      · intro hall
        exact ih.mpr fun x hx => hall x (List.mem_cons_of_mem b hx)

theorem find_place_brk_some (n : Nat) (l : List Block) (fb : Block)
    (h : (find_place_brk n l).1 = some fb) :
    n ≤ fb.size ∧
      ∃ l1 l2, l = l1 ++ fb :: l2 ∧ (∀ b ∈ l1, b.size < n) ∧
        (find_place_brk n l).2 = l1 ++ l2 := by
  induction l with
  | nil => simp [find_place_brk] at h
  | cons b rest ih =>
    by_cases hb : n ≤ b.size
    · simp only [find_place_brk, if_pos hb] at h ⊢
      obtain rfl : b = fb := by simpa using h
      exact ⟨hb, [], rest, rfl, by simp, rfl⟩
    · simp only [find_place_brk, if_neg hb] at h ⊢
      obtain ⟨hfit, l1, l2, hsplit, hsmall, hrest⟩ := ih h
      refine ⟨hfit, b :: l1, l2, by simp [hsplit], ?_, by simp [hrest]⟩
      intro x hx
      rcases List.mem_cons.mp hx with hx | hx
      · subst hx; omega
      · exact hsmall x hx

/-! ### Claim C1: the free-list search -/

/-- C1 counterexample.  The spec claims the search returns the fitting free
block of smallest payload size.  On the free list whose first block has
payload 96 and whose second has payload 40, a request of 40 is answered
with the 96-byte block although the 40-byte block also fits and is
strictly smaller: find_place_brk is first-fit, not best-fit. -/
theorem C1_counterexample :
    (find_place_brk 40 [⟨4096, 96, Status.free⟩, ⟨8192, 40, Status.free⟩]).1 =
        some ⟨4096, 96, Status.free⟩ ∧
    (⟨8192, 40, Status.free⟩ : Block) ∈
        [(⟨4096, 96, Status.free⟩ : Block), ⟨8192, 40, Status.free⟩] ∧
    40 ≤ (⟨8192, 40, Status.free⟩ : Block).size ∧
    (⟨8192, 40, Status.free⟩ : Block).size < (⟨4096, 96, Status.free⟩ : Block).size := by
  decide

/-- C1 amended: find_place_brk returns the FIRST free block in list order
whose payload size is at least the request (first-fit, not best-fit); it
returns none exactly when no free block fits; and on success the returned
block is detached from the free list, the remaining entries keeping their
order. -/
theorem C1_find_place_brk_first_fit (n : Nat) (l : List Block) :
    ((find_place_brk n l).1 = none ↔ ∀ b ∈ l, b.size < n) ∧
    ∀ fb, (find_place_brk n l).1 = some fb →
      n ≤ fb.size ∧
      ∃ l1 l2, l = l1 ++ fb :: l2 ∧ (∀ b ∈ l1, b.size < n) ∧
        (find_place_brk n l).2 = l1 ++ l2 :=
  ⟨find_place_brk_none n l, fun fb h => find_place_brk_some n l fb h⟩

/-! ### Mapping-list stability of the heap path -/

theorem preHeap_mapped (s : AllocState) : (preHeap s).mapped = s.mapped := by
  unfold preHeap prealloc_heap
  split <;> rfl

theorem preHeap_brk_le (s : AllocState) : s.brk ≤ (preHeap s).brk := by
  unfold preHeap prealloc_heap
  split <;> simp

theorem reuse_block_brk_mapped (size : Nat) (s : AllocState) (a : Nat) (s' : AllocState)
    (h : reuse_block_brk size s = ReuseResult.ok a s') : s'.mapped = s.mapped := by
  unfold reuse_block_brk at h
  split at h
  · cases h
  · cases h
  · dsimp only at h
    split at h
    · split at h
      · cases h; rfl
      · cases h
    · cases h; rfl

theorem fresh_extension_mapped (size : Nat) (s : AllocState) :
    (fresh_extension size s).2.mapped = s.mapped := rfl

theorem increase_brk_mapped (size : Nat) (s : AllocState) (a : Nat) (s' : AllocState)
    (h : increase_brk size s = some (a, s')) : s'.mapped = s.mapped := by
  unfold increase_brk at h
  split at h
  · cases h; rfl
  · split at h
    · cases h
    · cases h
      exact reuse_block_brk_mapped size s _ _ (by assumption)
    · cases h; rfl

theorem heap_service_mapped (size : Nat) (s : AllocState) (a : Nat) (s' : AllocState)
    (h : heap_service size s = some (a, s')) : s'.mapped = s.mapped := by
  unfold heap_service at h
  dsimp only at h
  split at h
  · exact (increase_brk_mapped size (preHeap s) a s' h).trans (preHeap_mapped s)
  · split at h
    · cases h
      exact preHeap_mapped s
    · cases h
      exact preHeap_mapped s

/-! ### Claim C3: the routing threshold -/

/-- C3 counterexample.  The claim states that a request of exactly
MMAP_THRESHOLD − METADATA_SIZE stays on the heap.  In the source the heap
path requires size + METADATA_SIZE < MMAP_THRESHOLD, so this request is
serviced by a fresh anonymous mapping: the state gains a MAPPED header and
the heap lists and break are untouched. -/
theorem C3_counterexample :
    os_malloc 8192 (MMAP_THRESHOLD - METADATA_SIZE) initState =
      some (some (8192 + METADATA_SIZE),
        { initState with
            mapped := [⟨8192, MMAP_THRESHOLD - METADATA_SIZE, Status.mapped⟩] }) := by
  decide

/-- C3 amended: the routing guard of line 302 compares the size_t sum
size + METADATA_SIZE (wrapping modulo 2^64) against the threshold 131072.
For a request n whose sum does not wrap, n + METADATA_SIZE < threshold is
serviced on the heap (the call creates no mapping) and
n + METADATA_SIZE ≥ threshold is serviced by mapping; hence a request of
exactly threshold − METADATA_SIZE − 1 stays on the heap and a request of
threshold − METADATA_SIZE goes to mapping.  In the wrap corner
n ≥ 2^64 − METADATA_SIZE the guard wraps below the threshold and the call
takes the heap path, creating no mapping. -/
theorem C3_routing (a n : Nat) (s : AllocState) (hn : n ≠ 0) :
    (n + METADATA_SIZE < 2 ^ 64 → MMAP_THRESHOLD ≤ n + METADATA_SIZE →
      os_malloc a n s = some (some (a + METADATA_SIZE),
        { s with mapped := ⟨a, n, Status.mapped⟩ :: s.mapped })) ∧
    (n + METADATA_SIZE < MMAP_THRESHOLD →
      ∀ r s', os_malloc a n s = some (r, s') → s'.mapped = s.mapped) ∧
    (2 ^ 64 ≤ n + METADATA_SIZE → n < 2 ^ 64 →
      ∀ r s', os_malloc a n s = some (r, s') → s'.mapped = s.mapped) := by
  have hm32 : METADATA_SIZE = 32 := rfl
  refine ⟨?_, ?_, ?_⟩
  · intro h64 h1
    have hmod : (n + METADATA_SIZE) % 2 ^ 64 = n + METADATA_SIZE :=
      Nat.mod_eq_of_lt h64
    have hguard : ¬ ((n + METADATA_SIZE) % 2 ^ 64 < MMAP_THRESHOLD) := by
      rw [hmod]
      exact Nat.not_lt.mpr h1
    unfold os_malloc
    rw [if_neg hn, if_neg hguard]
    rfl
  · intro h2 r s' h
    have hmod : (n + METADATA_SIZE) % 2 ^ 64 = n + METADATA_SIZE := by
      have hT : MMAP_THRESHOLD = 131072 := rfl
      omega
    simp only [os_malloc, if_neg hn, hmod, if_pos h2] at h
    cases hhs : heap_service n s with
    | none => rw [hhs] at h; cases h
    | some v =>
      rw [hhs] at h
      simp only [Option.map_some'] at h
      have hs' : s' = v.2 := (congrArg Prod.snd (Option.some.inj h)).symm
      rw [hs']
      exact heap_service_mapped n s v.1 v.2 (by rw [hhs])
  · intro hwrap hlt r s' h
    have hmod : (n + METADATA_SIZE) % 2 ^ 64 = n + METADATA_SIZE - 2 ^ 64 := by
      omega
    have hsmall : (n + METADATA_SIZE) % 2 ^ 64 < MMAP_THRESHOLD := by
      rw [hmod]
      simp only [MMAP_THRESHOLD]
      omega
    simp only [os_malloc, if_neg hn, if_pos hsmall] at h
    cases hhs : heap_service n s with
    | none => rw [hhs] at h; cases h
    | some v =>
      rw [hhs] at h
      simp only [Option.map_some'] at h
      have hs' : s' = v.2 := (congrArg Prod.snd (Option.some.inj h)).symm
      rw [hs']
      exact heap_service_mapped n s v.1 v.2 (by rw [hhs])

/-- C3 witness: at the boundary, 131040 = threshold − METADATA_SIZE is
serviced by mapping and 131039 is serviced on the heap (no mapping is
created). -/
theorem C3_routing_witness :
    os_malloc 8192 131040 initState =
      some (some 8224, { initState with mapped := [⟨8192, 131040, Status.mapped⟩] }) ∧
    c3run.2.mapped = initState.mapped := by
  constructor
  · have h := (C3_routing 8192 131040 initState (by decide)).1 (by decide) (by decide)
    simpa using h
  · exact (C3_routing 8192 131039 initState (by decide)).2.1 (by decide)
      c3run.1 c3run.2 (by decide)

/-! ### Claim C6: resize edge cases -/

/-- C6: resize(null, n) is exactly allocate(n); resize(p, 0) for non-null p
is exactly release(p) and returns null; resize of a pointer whose header
status is FREE fails with null and no state change. -/
theorem C6_realloc_edge_cases (a p n : Nat) (s : AllocState) (blk : Block) :
    (os_realloc a 0 n s = os_malloc a n s) ∧
    (p ≠ 0 → os_realloc a p 0 s = (os_free p s).map (fun s' => (none, s'))) ∧
    (p ≠ 0 → n ≠ 0 → findBlock (p - METADATA_SIZE) s = some blk →
      blk.status = Status.free → os_realloc a p n s = some (none, s)) := by
  refine ⟨rfl, ?_, ?_⟩
  · intro hp
    simp [os_realloc, hp]
  · intro hp hn hfind hst
    simp [os_realloc, hp, hn, hfind, hst]

/-- C6 witness: the three edge cases evaluated on a concrete state holding
one free heap block at address 4096. -/
theorem C6_realloc_edge_cases_witness :
    (os_realloc 8192 0 8 reallocEdgeState = os_malloc 8192 8 reallocEdgeState) ∧
    (os_realloc 8192 4128 0 reallocEdgeState =
      (os_free 4128 reallocEdgeState).map (fun s' => (none, s'))) ∧
    (os_realloc 8192 4128 8 reallocEdgeState = some (none, reallocEdgeState)) := by
  obtain ⟨h1, h2, h3⟩ :=
    C6_realloc_edge_cases 8192 4128 8 reallocEdgeState ⟨4096, 64, Status.free⟩
  exact ⟨C6_realloc_edge_cases 8192 4128 8 reallocEdgeState ⟨4096, 64, Status.free⟩ |>.1,
    (C6_realloc_edge_cases 8192 4128 0 reallocEdgeState ⟨4096, 64, Status.free⟩).2.1 (by decide),
    h3 (by decide) (by decide) (by decide) (by decide)⟩

/-! ### Claim C9: shrink in place that cannot split -/

/-- C9: when resize shrinks a heap (ALLOCATED) block in place and the
trailing remainder cannot hold a new free block (it does not exceed
METADATA_SIZE + 1), the stored larger payload size is silently retained,
the state is unchanged, and the original pointer is returned; in
particular resize does not return null because the split would not fit. -/
theorem C9_shrink_no_split (a p n : Nat) (s : AllocState) (blk : Block)
    (hp : p ≠ 0) (hn : n ≠ 0)
    (hfind : findBlock (p - METADATA_SIZE) s = some blk)
    (hst : blk.status = Status.alloc)
    (hlt : n < blk.size)
    (hrem : sub64 (sub64 blk.size n) (calculate_padding n) ≤ METADATA_SIZE + 1) :
    os_realloc a p n s = some (some p, s) := by
  have hstf : ¬ blk.status = Status.free := by rw [hst]; intro hc; cases hc
  have hstm : ¬ blk.status = Status.mapped := by rw [hst]; intro hc; cases hc
  by_cases heq : blk.size = n + calculate_padding n
  · simp [os_realloc, hp, hn, hfind, hstf, heq]
  · simp only [os_realloc, if_neg hp, if_neg hn, hfind, if_neg hstf, if_neg heq,
      if_neg hstm]
    unfold realloc_heap_tail
    dsimp only
    rw [if_pos hlt, if_neg (by omega)]

/-- C9 witness: shrinking a 48-byte block to 10 bytes leaves a remainder of
32 ≤ METADATA_SIZE + 1, so the call returns the original pointer and the
stored size keeps its value. -/
theorem C9_shrink_no_split_witness :
    os_realloc 8192 4128 10 shrinkState = some (some 4128, shrinkState) :=
  C9_shrink_no_split 8192 4128 10 shrinkState ⟨4096, 48, Status.alloc⟩
    (by decide) (by decide) (by decide) (by decide) (by decide) (by decide)

/-! ### Claim C10: the calloc size truncation -/

theorem callocTotal_eq (nm sz : Nat) :
    callocTotal nm sz =
      if nm * sz % 2 ^ 32 < 2 ^ 31 then nm * sz % 2 ^ 32
      else 2 ^ 64 - 2 ^ 32 + nm * sz % 2 ^ 32 := by
  by_cases h : nm * sz % 2 ^ 32 < 2 ^ 31
  · simp only [callocTotal, toSizeT, toInt32, if_pos h]
    omega
  · simp only [callocTotal, toSizeT, toInt32, if_neg h]
    omega

theorem callocTotal_eq_zero (nm sz : Nat) :
    callocTotal nm sz = 0 ↔ 2 ^ 32 ∣ nm * sz := by
  rw [callocTotal_eq]
  split <;> omega

theorem callocTotal_lt (nm sz : Nat) : callocTotal nm sz < 2 ^ 64 := by
  rw [callocTotal_eq]
  have h := Nat.mod_lt (nm * sz) (y := 2 ^ 32) (by omega)
  split <;> omega

/-- C10 counterexample.  The claim states the size os_calloc allocates and
zeroes is the product reduced modulo 2^32.  For count 1 and element size
2^31 the truncated int is negative; converted back to size_t it is sign
extended, and the mapped header stores 2^64 − 2^31 bytes, not
1 * 2^31 % 2^32 = 2^31. -/
theorem C10_counterexample :
    os_calloc 8192 1 (2 ^ 31) initState =
      some (some 8224,
        { initState with mapped := [⟨8192, 2 ^ 64 - 2 ^ 31, Status.mapped⟩] }) ∧
    (2 ^ 64 - 2 ^ 31 : Nat) ≠ 1 * 2 ^ 31 % 2 ^ 32 :=
  ⟨by decide, by decide⟩

/-- C10 amended: os_calloc computes its total as count * element-size
truncated to a signed 32-bit int; every nonzero exact product that is a
multiple of 2^32 truncates to zero and returns null without allocating;
the size it allocates and zeroes is that int read back as size_t, which
is the product mod 2^32 when that value is below 2^31 and its sign
extension 2^64 − 2^32 + (product mod 2^32) otherwise, as the mapping path
records in the header it creates whenever the size_t routing sum
total + METADATA_SIZE does not wrap; in the wrap corner (sign-extended
totals of 2^64 − METADATA_SIZE and above, i.e. products congruent to
−METADATA_SIZE..−1 modulo 2^32) the guard of line 379 wraps below the
page size and the call takes the heap path, creating no mapping. -/
theorem C10_calloc_truncation (a nm sz : Nat) (s : AllocState) :
    (nm * sz ≠ 0 → 2 ^ 32 ∣ nm * sz → os_calloc a nm sz s = some (none, s)) ∧
    (callocTotal nm sz =
      if nm * sz % 2 ^ 32 < 2 ^ 31 then nm * sz % 2 ^ 32
      else 2 ^ 64 - 2 ^ 32 + nm * sz % 2 ^ 32) ∧
    (¬ 2 ^ 32 ∣ nm * sz → callocTotal nm sz + METADATA_SIZE < 2 ^ 64 →
      PAGE_SIZE ≤ callocTotal nm sz + METADATA_SIZE →
      os_calloc a nm sz s = some (some (a + METADATA_SIZE),
        { s with mapped := ⟨a, callocTotal nm sz, Status.mapped⟩ :: s.mapped })) ∧
    (2 ^ 64 ≤ callocTotal nm sz + METADATA_SIZE →
      ∀ r s', os_calloc a nm sz s = some (r, s') → s'.mapped = s.mapped) := by
  have hm32 : METADATA_SIZE = 32 := rfl
  refine ⟨?_, callocTotal_eq nm sz, ?_, ?_⟩
  · intro _ hdvd
    have h0 : callocTotal nm sz = 0 := (callocTotal_eq_zero nm sz).mpr hdvd
    simp [os_calloc, h0]
  · intro hdvd h64 hth
    have hne : callocTotal nm sz ≠ 0 := fun hc => hdvd ((callocTotal_eq_zero nm sz).mp hc)
    have hmod : (callocTotal nm sz + METADATA_SIZE) % 2 ^ 64 =
        callocTotal nm sz + METADATA_SIZE := Nat.mod_eq_of_lt h64
    have hguard : ¬ ((callocTotal nm sz + METADATA_SIZE) % 2 ^ 64 < PAGE_SIZE) := by
      rw [hmod]
      exact Nat.not_lt.mpr hth
    unfold os_calloc
    dsimp only
    rw [if_neg hne, if_neg hguard]
    rfl
  · intro hwrap r s' h
    have hub := callocTotal_lt nm sz
    have hne : callocTotal nm sz ≠ 0 := by omega
    have hsmall : (callocTotal nm sz + METADATA_SIZE) % 2 ^ 64 < PAGE_SIZE := by
      have hmod : (callocTotal nm sz + METADATA_SIZE) % 2 ^ 64 =
          callocTotal nm sz + METADATA_SIZE - 2 ^ 64 := by omega
      rw [hmod]
      simp only [PAGE_SIZE]
      omega
    simp only [os_calloc, if_neg hne, if_pos hsmall] at h
    cases hhs : heap_service (callocTotal nm sz) s with
    | none => rw [hhs] at h; cases h
    | some v =>
      rw [hhs] at h
      simp only [Option.map_some'] at h
      have hs' : s' = v.2 := (congrArg Prod.snd (Option.some.inj h)).symm
      rw [hs']
      exact heap_service_mapped (callocTotal nm sz) s v.1 v.2 (by rw [hhs])

/-- C10 witness: count 2^32 with element size 1 has a nonzero product that
is a multiple of 2^32 and returns null with no allocation; count 1 with
element size 2^31 is serviced by mapping with the sign-extended size. -/
theorem C10_calloc_truncation_witness :
    os_calloc 8192 (2 ^ 32) 1 initState = some (none, initState) ∧
    os_calloc 8192 1 (2 ^ 31) initState =
      some (some 8224,
        { initState with mapped := [⟨8192, 2 ^ 64 - 2 ^ 31, Status.mapped⟩] }) := by
  constructor
  · exact (C10_calloc_truncation 8192 (2 ^ 32) 1 initState).1 (by decide) (by omega)
  · have e : callocTotal 1 (2 ^ 31) = 2 ^ 64 - 2 ^ 31 := by decide
    have h := (C10_calloc_truncation 8192 1 (2 ^ 31) initState).2.2.1 (by omega)
      (by rw [e]; decide) (by rw [e]; decide)
    rw [e] at h
    simpa using h

/-! ### Claim C4: splitting a fitting free block -/

theorem METADATA_SIZE_eq : METADATA_SIZE = 32 := rfl

theorem MMAP_THRESHOLD_eq : MMAP_THRESHOLD = 131072 := rfl

/-- C4: when the search selects a free block of payload size F for a
request n with padded size np = n + padding(n), and the block address is
8-aligned (as every heap block address is), the remainder F − np becomes
a new free block exactly when F − np ≥ METADATA_SIZE + 1: a new header is
written at base + METADATA_SIZE + np with payload size
F − np − METADATA_SIZE and inserted into the free list while the
allocated size is set to np; otherwise the whole block is granted with
its payload size left at F. -/
theorem C4_malloc_split (a n : Nat) (s : AllocState) (fb : Block) (fl' : List Block)
    (hn : n ≠ 0) (hth : n + METADATA_SIZE < MMAP_THRESHOLD)
    (hfind : find_place_brk n (preHeap s).free = (some fb, fl'))
    (hal : 8 ∣ fb.addr) :
    (METADATA_SIZE + 1 + (n + calculate_padding n) ≤ fb.size →
      os_malloc a n s = some (some (fb.addr + METADATA_SIZE),
        { preHeap s with
            free := add_free_block
              ⟨fb.addr + METADATA_SIZE + (n + calculate_padding n),
               fb.size - (n + calculate_padding n) - METADATA_SIZE, Status.free⟩ fl',
            used := add_used_block
              ⟨fb.addr, n + calculate_padding n, Status.alloc⟩ (preHeap s).used })) ∧
    (fb.size < METADATA_SIZE + 1 + (n + calculate_padding n) →
      os_malloc a n s = some (some (fb.addr + METADATA_SIZE),
        { preHeap s with
            free := fl'
            used := add_used_block ⟨fb.addr, fb.size, Status.alloc⟩ (preHeap s).used })) := by
  have hpad : calculate_padding (fb.addr + METADATA_SIZE + n) = calculate_padding n :=
    calculate_padding_add_left (fb.addr + METADATA_SIZE) n
      (by simp only [METADATA_SIZE_eq]; omega)
  constructor
  · intro hsplit
    have hthm : (n + METADATA_SIZE) % 2 ^ 64 < MMAP_THRESHOLD := by
      have hT : MMAP_THRESHOLD = 131072 := rfl
      have hM : METADATA_SIZE = 32 := rfl
      omega
    simp only [os_malloc, if_neg hn, if_pos hthm]
    unfold heap_service
    dsimp only
    rw [hfind]
    dsimp only
    rw [hpad]
    rw [if_pos (by omega :
      (METADATA_SIZE : Int) + 1 ≤ (fb.size : Int) - n - calculate_padding n)]
    simp only [Option.map_some']
    have haddr : fb.addr + METADATA_SIZE + n + calculate_padding n =
        fb.addr + METADATA_SIZE + (n + calculate_padding n) := by omega
    have hsize : (((fb.size : Int) - n - calculate_padding n) - METADATA_SIZE).toNat =
        fb.size - (n + calculate_padding n) - METADATA_SIZE := by
      omega
    rw [haddr, hsize]
  · intro hwhole
    have hthm : (n + METADATA_SIZE) % 2 ^ 64 < MMAP_THRESHOLD := by
      have hT : MMAP_THRESHOLD = 131072 := rfl
      have hM : METADATA_SIZE = 32 := rfl
      omega
    simp only [os_malloc, if_neg hn, if_pos hthm]
    unfold heap_service
    dsimp only
    rw [hfind]
    dsimp only
    rw [hpad]
    rw [if_neg (by omega :
      ¬ (METADATA_SIZE : Int) + 1 ≤ (fb.size : Int) - n - calculate_padding n)]
    simp only [Option.map_some']

/-- C4 witness: on a fresh allocator, a request of 100 bytes splits the
pre-allocated block (new free header at 4232 with payload 130904,
allocated size 104), while a request of 131008 bytes leaves a remainder of
32 ≤ METADATA_SIZE + 1 and is granted the whole 131040-byte block. -/
theorem C4_malloc_split_witness :
    (os_malloc 8192 100 initState =
      some (some 4128,
        ⟨[⟨4096, 104, Status.alloc⟩], [⟨4232, 130904, Status.free⟩], [], 135168⟩)) ∧
    (os_malloc 8192 131008 initState =
      some (some 4128, ⟨[⟨4096, 131040, Status.alloc⟩], [], [], 135168⟩)) := by
  constructor
  · exact ((C4_malloc_split 8192 100 initState ⟨4096, 131040, Status.free⟩ []
      (by decide) (by decide) (by decide) (by decide)).1 (by decide)).trans (by decide)
  · exact ((C4_malloc_split 8192 131008 initState ⟨4096, 131040, Status.free⟩ []
      (by decide) (by decide) (by decide) (by decide)).2 (by decide)).trans (by decide)

/-! ### Claim C5: coalescing after release -/

theorem coalesce_go_head (a : Block) (l : List Block) :
    ∃ c t, coalesce_go a l = c :: t ∧ c.addr = a.addr := by
  induction l generalizing a with
  | nil => exact ⟨a, [], rfl, rfl⟩
  | cons b rest ih =>
    by_cases h : a.addr + a.size + METADATA_SIZE = b.addr
    · simp only [coalesce_go, if_pos h]
      exact ih { a with size := a.size + b.size + METADATA_SIZE }
    · simp only [coalesce_go, if_neg h]
      exact ⟨a, coalesce_go b rest, rfl, rfl⟩

theorem wellSpaced_coalesce_strict (a : Block) (l : List Block)
    (h : wellSpaced (a :: l) = true) : strictSpaced (coalesce_go a l) := by
  induction l generalizing a with
  | nil => simp only [coalesce_go]; trivial
  | cons b rest ih =>
    simp only [wellSpaced, Bool.and_eq_true, decide_eq_true_eq] at h
    obtain ⟨h1, h2⟩ := h
    by_cases hc : a.addr + a.size + METADATA_SIZE = b.addr
    · simp only [coalesce_go, if_pos hc]
      apply ih
      cases rest with
      | nil => rfl
      | cons c rr =>
        simp only [wellSpaced, Bool.and_eq_true, decide_eq_true_eq] at h2 ⊢
        exact ⟨by omega, h2.2⟩
    · simp only [coalesce_go, if_neg hc]
      obtain ⟨c, t, hct, hca⟩ := coalesce_go_head b rest
      rw [hct]
      have hs := ih b h2
      rw [hct] at hs
      exact ⟨by omega, hs⟩

theorem strictSpaced_tail (a : Block) (l : List Block) (h : strictSpaced (a :: l)) :
    strictSpaced l := by
  cases l with
  | nil => trivial
  | cons b t => exact h.2

theorem strictSpaced_lt (a : Block) (l : List Block) (h : strictSpaced (a :: l)) :
    ∀ y ∈ l, a.addr + METADATA_SIZE + a.size < y.addr := by
  induction l generalizing a with
  | nil => intro y hy; cases hy
  | cons b t ih =>
    intro y hy
    have h1 : a.addr + METADATA_SIZE + a.size < b.addr := h.1
    rcases List.mem_cons.mp hy with rfl | hy
    · exact h1
    · have hb := ih b h.2 y hy
      have hm : (0 : Nat) < METADATA_SIZE := by decide
      omega

theorem strictSpaced_noContig (l : List Block) (h : strictSpaced l) :
    ∀ x ∈ l, ∀ y ∈ l, x.addr + METADATA_SIZE + x.size ≠ y.addr := by
  induction l with
  | nil => intro x hx; cases hx
  | cons a t ih =>
    intro x hx y hy
    have hlt := strictSpaced_lt a t h
    have hm : (0 : Nat) < METADATA_SIZE := by decide
    rcases List.mem_cons.mp hx with hxa | hx'
    · rcases List.mem_cons.mp hy with hya | hy'
      · rw [hxa, hya]; omega
      · rw [hxa]; exact Nat.ne_of_lt (hlt y hy')
    · rcases List.mem_cons.mp hy with hya | hy'
      · rw [hya]
        have := hlt x hx'
        omega
      · exact ih (strictSpaced_tail a t h) x hx' y hy'

/-- C5: releasing a pointer whose header is ALLOCATED removes the block
from the used list, inserts it into the free list and runs one coalescing
pass; provided the resulting insertion is spatially well formed (as it is
in every reachable state), immediately afterwards no two entries x, y of
the free list satisfy x.addr + METADATA_SIZE + x.size = y.addr — the
single pass removes every contiguity, including runs of several
contiguous blocks. -/
theorem C5_free_coalesces (p : Nat) (s : AllocState) (blk : Block)
    (hp : p ≠ 0)
    (hfind : findBlock (p - METADATA_SIZE) s = some blk)
    (hst : blk.status = Status.alloc)
    (hws : wellSpaced (add_free_block blk s.free) = true) :
    os_free p s = some
      { s with used := eraseBlock blk.addr s.used,
               free := coalesce_free_blocks (add_free_block blk s.free) } ∧
    ∀ x ∈ coalesce_free_blocks (add_free_block blk s.free),
      ∀ y ∈ coalesce_free_blocks (add_free_block blk s.free),
        x.addr + METADATA_SIZE + x.size ≠ y.addr := by
  constructor
  · simp [os_free, hp, hfind, hst]
  · cases hafb : add_free_block blk s.free with
    | nil => intro x hx; simp [coalesce_free_blocks] at hx
    | cons a t =>
      rw [hafb] at hws
      simp only [coalesce_free_blocks]
      exact strictSpaced_noContig _ (wellSpaced_coalesce_strict a t hws)

/-- C5 witness: releasing the allocated block at 4136, which touches the
free block at 4096, merges the two into a single free block of payload 48
and leaves no contiguous pair. -/
theorem C5_free_coalesces_witness :
    os_free 4168 freeDemoState = some ⟨[], [⟨4096, 48, Status.free⟩], [], 4176⟩ :=
  ((C5_free_coalesces 4168 freeDemoState ⟨4136, 8, Status.alloc⟩ (by decide) (by decide)
    (by decide) (by decide)).1).trans (by decide)

/-! ### Capacity and insertion lemmas -/

theorem freeCapacity_append (l1 l2 : List Block) :
    freeCapacity (l1 ++ l2) = freeCapacity l1 + freeCapacity l2 := by
  simp [freeCapacity]

theorem freeCapacity_cons (b : Block) (l : List Block) :
    freeCapacity (b :: l) = b.size + METADATA_SIZE + freeCapacity l := by
  simp [freeCapacity]

theorem freeCapacity_coalesce_go (a : Block) (l : List Block) :
    freeCapacity (coalesce_go a l) = a.size + METADATA_SIZE + freeCapacity l := by
  induction l generalizing a with
  | nil => simp [coalesce_go, freeCapacity]
  | cons b rest ih =>
    by_cases h : a.addr + a.size + METADATA_SIZE = b.addr
    · simp only [coalesce_go, if_pos h]
      rw [ih, freeCapacity_cons]
      dsimp only
      omega
    · simp only [coalesce_go, if_neg h]
      rw [freeCapacity_cons, ih, freeCapacity_cons]

theorem freeCapacity_coalesce (l : List Block) :
    freeCapacity (coalesce_free_blocks l) = freeCapacity l := by
  cases l with
  | nil => rfl
  | cons a t =>
    simp only [coalesce_free_blocks]
    rw [freeCapacity_coalesce_go, freeCapacity_cons]

theorem add_free_block_go_decomp (b curr : Block) (t : List Block) :
    ∃ l1 l2, add_free_block_go b curr t = l1 ++ b :: l2 ∧ curr :: t = l1 ++ l2 := by
  induction t generalizing curr with
  | nil =>
    by_cases h : curr.addr < b.addr
    · exact ⟨[curr], [], by simp [add_free_block_go, h], by simp⟩
    · exact ⟨[], [curr], by simp [add_free_block_go, h], by simp⟩
  | cons next rest ih =>
    by_cases h : b.addr < next.addr
    · by_cases h2 : curr.addr < b.addr
      · exact ⟨[curr], next :: rest, by simp [add_free_block_go, h, h2], by simp⟩
      · exact ⟨[], curr :: next :: rest, by simp [add_free_block_go, h, h2], by simp⟩
    · obtain ⟨l1, l2, he, hl⟩ := ih next
      exact ⟨curr :: l1, l2, by simp [add_free_block_go, h, he], by simp [hl]⟩

theorem add_free_block_decomp (b : Block) (l : List Block) :
    ∃ l1 l2, add_free_block b l = l1 ++ { b with status := Status.free } :: l2 ∧
      l = l1 ++ l2 := by
  cases l with
  | nil => exact ⟨[], [], rfl, rfl⟩
  | cons h t => exact add_free_block_go_decomp { b with status := Status.free } h t

theorem freeCapacity_add_free_block (b : Block) (l : List Block) :
    freeCapacity (add_free_block b l) = b.size + METADATA_SIZE + freeCapacity l := by
  obtain ⟨l1, l2, he, hl⟩ := add_free_block_decomp b l
  rw [he, hl, freeCapacity_append, freeCapacity_append, freeCapacity_cons]
  dsimp only
  omega

theorem add_used_block_go_decomp (b curr : Block) (t : List Block) :
    ∃ l1 l2, add_used_block_go b curr t = l1 ++ b :: l2 ∧ curr :: t = l1 ++ l2 := by
  induction t generalizing curr with
  | nil => exact ⟨[curr], [], rfl, by simp⟩
  | cons next rest ih =>
    by_cases h : b.addr < next.addr
    · exact ⟨[curr], next :: rest, by simp [add_used_block_go, h], by simp⟩
    · obtain ⟨l1, l2, he, hl⟩ := ih next
      exact ⟨curr :: l1, l2, by simp [add_used_block_go, h, he], by simp [hl]⟩

theorem add_used_block_decomp (b : Block) (l : List Block) :
    ∃ l1 l2, add_used_block b l = l1 ++ { b with status := Status.alloc } :: l2 ∧
      l = l1 ++ l2 := by
  cases l with
  | nil => exact ⟨[], [], rfl, rfl⟩
  | cons h t => exact add_used_block_go_decomp { b with status := Status.alloc } h t

theorem addr_ne_of_not_mem_map (a : Nat) (l : List Block) (h : a ∉ l.map Block.addr)
    (x : Block) (hx : x ∈ l) : x.addr ≠ a := by
  intro hc
  exact h (hc ▸ List.mem_map_of_mem Block.addr hx)

theorem find?_addr_append_right (a : Nat) (l1 l2 : List Block)
    (h : ∀ b ∈ l1, b.addr ≠ a) :
    (l1 ++ l2).find? (fun b => b.addr == a) = l2.find? (fun b => b.addr == a) := by
  rw [List.find?_append]
  have h1 : l1.find? (fun b => b.addr == a) = none :=
    List.find?_eq_none.mpr fun x hx => by simpa using h x hx
  rw [h1, Option.none_or]

/-! ### Claim C8: the release-after-allocate capacity round trip -/

/-- C8 counterexample.  The claim asserts that for every reachable state
release(allocate(n)) restores the total free capacity, modulo only the
one-time pre-allocation.  Reachable run: allocate(131032) consumes the
whole pre-allocated block (no split), so the free capacity before the next
call is 0 and the used list is nonempty (the pre-allocation exemption no
longer applies); allocate(100) then extends the program break, and
releasing that allocation leaves a free capacity of 136, not 0. -/
theorem C8_counterexample :
    os_malloc 4096 131032 initState = some (some 4128, c8s1) ∧
    c8s1.used ≠ [] ∧
    freeCapacity c8s1.free = 0 ∧
    os_malloc 4096 100 c8s1 = some (some 135200, c8s2) ∧
    os_free 135200 c8s2 = some c8s3 ∧
    freeCapacity c8s3.free = 136 := by
  refine ⟨by decide, by decide, by decide, by decide, by decide, by decide⟩


theorem os_free_alloc_eq (p : Nat) (s : AllocState) (blk : Block)
    (hp : ¬ p = 0)
    (hfind : findBlock (p - METADATA_SIZE) s = some blk)
    (hst : blk.status = Status.alloc) :
    os_free p s = some ⟨eraseBlock blk.addr s.used,
      coalesce_free_blocks (add_free_block blk s.free), s.mapped, s.brk⟩ := by
  simp [os_free, hp, hfind, hst]

theorem findBlock_after_add_used (b : Block) (u f m : List Block) (brk : Nat)
    (hst : b.status = Status.alloc)
    (hnot : b.addr ∉ u.map Block.addr) :
    findBlock b.addr ⟨add_used_block b u, f, m, brk⟩ = some b := by
  obtain ⟨l1, l2, he, hl⟩ := add_used_block_decomp b u
  have hb' : ({ b with status := Status.alloc } : Block) = b := by
    cases b with
    | mk addr size status => cases hst; rfl
  unfold findBlock
  dsimp only
  rw [List.find?_append, List.find?_append, he, hb',
    find?_addr_append_right b.addr l1 _
      (fun x hx => addr_ne_of_not_mem_map b.addr u hnot x
        (by rw [hl]; exact List.mem_append_left l2 hx)),
    List.find?_cons_of_pos _ (by simp)]
  rfl

theorem malloc_free_roundtrip_heap (u f m : List Block) (brk : Nat) (blk : Block)
    (hst : blk.status = Status.alloc)
    (hnot : blk.addr ∉ u.map Block.addr)
    (hp : ¬ blk.addr + METADATA_SIZE = 0) :
    os_free (blk.addr + METADATA_SIZE) ⟨add_used_block blk u, f, m, brk⟩ =
      some ⟨eraseBlock blk.addr (add_used_block blk u),
        coalesce_free_blocks (add_free_block blk f), m, brk⟩ ∧
    freeCapacity (coalesce_free_blocks (add_free_block blk f)) =
      blk.size + METADATA_SIZE + freeCapacity f := by
  constructor
  · exact os_free_alloc_eq (blk.addr + METADATA_SIZE) ⟨add_used_block blk u, f, m, brk⟩ blk hp
      (by rw [Nat.add_sub_cancel]; exact findBlock_after_add_used blk u f m brk hst hnot)
      hst
  · rw [freeCapacity_coalesce, freeCapacity_add_free_block]

/-- C8 amended: for n > 0 the round trip release(allocate(n)) restores the
total free capacity (sum of free-list payload sizes plus METADATA_SIZE per
block) whenever the allocation is serviced by mapping or from a free block
found by the search; the one-time pre-allocation on first heap use adds
exactly MMAP_THRESHOLD bytes of capacity.  (When the call instead extends
the program break, the released extension adds new capacity: see the
counterexample.) -/
theorem C8_roundtrip_capacity (a n : Nat) (s : AllocState) (hn : n ≠ 0) :
    (n + METADATA_SIZE < 2 ^ 64 → MMAP_THRESHOLD ≤ n + METADATA_SIZE →
      (∀ b ∈ s.used ++ s.free, b.addr ≠ a) →
      os_malloc a n s = some (some (a + METADATA_SIZE),
        { s with mapped := ⟨a, n, Status.mapped⟩ :: s.mapped }) ∧
      os_free (a + METADATA_SIZE)
        { s with mapped := ⟨a, n, Status.mapped⟩ :: s.mapped } = some s) ∧
    (n + METADATA_SIZE < MMAP_THRESHOLD →
      ∀ fb fl', find_place_brk n (preHeap s).free = (some fb, fl') →
      fb.addr ∉ (preHeap s).used.map Block.addr →
      os_malloc a n s = some (some (fb.addr + METADATA_SIZE), afterMalloc a n s) ∧
      os_free (fb.addr + METADATA_SIZE) (afterMalloc a n s) =
        some (afterFree (fb.addr + METADATA_SIZE) (afterMalloc a n s)) ∧
      (freeCapacity (afterFree (fb.addr + METADATA_SIZE) (afterMalloc a n s)).free
          = freeCapacity s.free ∨
        (s.used = [] ∧ s.free = [] ∧
          freeCapacity (afterFree (fb.addr + METADATA_SIZE) (afterMalloc a n s)).free
            = freeCapacity s.free + MMAP_THRESHOLD))) := by
  have hm32 : METADATA_SIZE = 32 := rfl
  constructor
  · intro h64 hth hfresh
    have hmal : os_malloc a n s = some (some (a + METADATA_SIZE),
        { s with mapped := ⟨a, n, Status.mapped⟩ :: s.mapped }) := by
      have hmod : (n + METADATA_SIZE) % 2 ^ 64 = n + METADATA_SIZE :=
        Nat.mod_eq_of_lt h64
      have hguard : ¬ ((n + METADATA_SIZE) % 2 ^ 64 < MMAP_THRESHOLD) := by
        rw [hmod]
        exact Nat.not_lt.mpr hth
      unfold os_malloc
      rw [if_neg hn, if_neg hguard]
      rfl
    refine ⟨hmal, ?_⟩
    have hp0 : ¬ a + METADATA_SIZE = 0 := by omega
    have hfind : findBlock (a + METADATA_SIZE - METADATA_SIZE)
        { s with mapped := ⟨a, n, Status.mapped⟩ :: s.mapped } =
        some ⟨a, n, Status.mapped⟩ := by
      rw [Nat.add_sub_cancel]
      unfold findBlock
      dsimp only
      rw [find?_addr_append_right a (s.used ++ s.free) _ hfresh]
      rw [List.find?_cons_of_pos _ (by simp)]
    have h1 : ¬ (⟨a, n, Status.mapped⟩ : Block).status = Status.alloc := by
      intro hc; cases hc
    have herase : eraseBlock a (⟨a, n, Status.mapped⟩ :: s.mapped) = s.mapped := by
      unfold eraseBlock
      rw [List.eraseP_cons_of_pos (by simp)]
    simp only [os_free, if_neg hp0, hfind, if_neg h1, if_pos rfl]
    rw [herase]
    rfl
  · intro hth fb fl' hfind hnotin
    have hp0 : ¬ fb.addr + METADATA_SIZE = 0 := by omega
    obtain ⟨hfit, m1, m2, hsp, hsm, hrest⟩ :=
      find_place_brk_some n (preHeap s).free fb
        (by rw [hfind])
    have hfl : fl' = m1 ++ m2 := by
      have h2 := congrArg Prod.snd hfind
      dsimp at h2
      rw [← h2, hrest]
    have hcap0 : freeCapacity (preHeap s).free =
        freeCapacity m1 + (fb.size + METADATA_SIZE) + freeCapacity m2 := by
      rw [hsp, freeCapacity_append, freeCapacity_cons]
      omega
    have hfl'cap : freeCapacity fl' = freeCapacity m1 + freeCapacity m2 := by
      rw [hfl, freeCapacity_append]
    by_cases hsplit : (METADATA_SIZE : Int) + 1 ≤
        (fb.size : Int) - n - calculate_padding (fb.addr + METADATA_SIZE + n)
    · -- the fitting block is split
      have hmal : os_malloc a n s = some (some (fb.addr + METADATA_SIZE),
          (⟨add_used_block
              ⟨fb.addr, n + calculate_padding (fb.addr + METADATA_SIZE + n), Status.alloc⟩
              (preHeap s).used,
            add_free_block
              ⟨fb.addr + METADATA_SIZE + n + calculate_padding (fb.addr + METADATA_SIZE + n),
               ((fb.size : Int) - n - calculate_padding (fb.addr + METADATA_SIZE + n)
                 - METADATA_SIZE).toNat, Status.free⟩ fl',
            (preHeap s).mapped, (preHeap s).brk⟩ : AllocState)) := by
        have hthm : (n + METADATA_SIZE) % 2 ^ 64 < MMAP_THRESHOLD := by
          have hT : MMAP_THRESHOLD = 131072 := rfl
          have hM : METADATA_SIZE = 32 := rfl
          omega
        simp only [os_malloc, if_neg hn, if_pos hthm]
        unfold heap_service
        dsimp only
        rw [hfind]
        dsimp only
        rw [if_pos hsplit]
        rfl
      have hafter : afterMalloc a n s =
          (⟨add_used_block
              ⟨fb.addr, n + calculate_padding (fb.addr + METADATA_SIZE + n), Status.alloc⟩
              (preHeap s).used,
            add_free_block
              ⟨fb.addr + METADATA_SIZE + n + calculate_padding (fb.addr + METADATA_SIZE + n),
               ((fb.size : Int) - n - calculate_padding (fb.addr + METADATA_SIZE + n)
                 - METADATA_SIZE).toNat, Status.free⟩ fl',
            (preHeap s).mapped, (preHeap s).brk⟩ : AllocState) := by
        simp only [afterMalloc, hmal, Option.getD_some]
      rw [hafter]
      obtain ⟨hfree, hcap⟩ := malloc_free_roundtrip_heap (preHeap s).used
        (add_free_block
          ⟨fb.addr + METADATA_SIZE + n + calculate_padding (fb.addr + METADATA_SIZE + n),
           ((fb.size : Int) - n - calculate_padding (fb.addr + METADATA_SIZE + n)
             - METADATA_SIZE).toNat, Status.free⟩ fl')
        (preHeap s).mapped (preHeap s).brk
        ⟨fb.addr, n + calculate_padding (fb.addr + METADATA_SIZE + n), Status.alloc⟩
        rfl hnotin hp0
      have hafterF : afterFree (fb.addr + METADATA_SIZE)
          (⟨add_used_block
              ⟨fb.addr, n + calculate_padding (fb.addr + METADATA_SIZE + n), Status.alloc⟩
              (preHeap s).used,
            add_free_block
              ⟨fb.addr + METADATA_SIZE + n + calculate_padding (fb.addr + METADATA_SIZE + n),
               ((fb.size : Int) - n - calculate_padding (fb.addr + METADATA_SIZE + n)
                 - METADATA_SIZE).toNat, Status.free⟩ fl',
            (preHeap s).mapped, (preHeap s).brk⟩ : AllocState) =
          (⟨eraseBlock fb.addr (add_used_block
              ⟨fb.addr, n + calculate_padding (fb.addr + METADATA_SIZE + n), Status.alloc⟩
              (preHeap s).used),
            coalesce_free_blocks (add_free_block
              ⟨fb.addr, n + calculate_padding (fb.addr + METADATA_SIZE + n), Status.alloc⟩
              (add_free_block
                ⟨fb.addr + METADATA_SIZE + n + calculate_padding (fb.addr + METADATA_SIZE + n),
                 ((fb.size : Int) - n - calculate_padding (fb.addr + METADATA_SIZE + n)
                   - METADATA_SIZE).toNat, Status.free⟩ fl')),
            (preHeap s).mapped, (preHeap s).brk⟩ : AllocState) := by
        simp only [afterFree, hfree, Option.getD_some]
      refine ⟨hmal, ?_, ?_⟩
      · rw [hafterF]
        exact hfree
      · rw [hafterF]
        dsimp only
        rw [freeCapacity_coalesce, freeCapacity_add_free_block, freeCapacity_add_free_block]
        dsimp only
        have htn : (((fb.size : Int) - n - calculate_padding (fb.addr + METADATA_SIZE + n)
            - METADATA_SIZE)).toNat =
            fb.size - n - calculate_padding (fb.addr + METADATA_SIZE + n) - METADATA_SIZE := by
          omega
        rw [htn]
        by_cases hpre : s.used = [] ∧ s.free = []
        · right
          refine ⟨hpre.1, hpre.2, ?_⟩
          have hps : preHeap s = prealloc_heap s := by
            unfold preHeap
            rw [if_pos hpre]
          have hcapS : freeCapacity (preHeap s).free = MMAP_THRESHOLD := by
            rw [hps]
            unfold prealloc_heap
            dsimp only
            rw [freeCapacity_cons]
            rfl
          have hcapS0 : freeCapacity s.free = 0 := by
            rw [hpre.2]; rfl
          omega
        · left
          have hps : preHeap s = s := by
            unfold preHeap
            rw [if_neg hpre]
          rw [hps] at hcap0
          omega
    · -- the whole block is granted
      have hmal : os_malloc a n s = some (some (fb.addr + METADATA_SIZE),
          (⟨add_used_block ⟨fb.addr, fb.size, Status.alloc⟩ (preHeap s).used,
            fl', (preHeap s).mapped, (preHeap s).brk⟩ : AllocState)) := by
        have hthm : (n + METADATA_SIZE) % 2 ^ 64 < MMAP_THRESHOLD := by
          have hT : MMAP_THRESHOLD = 131072 := rfl
          have hM : METADATA_SIZE = 32 := rfl
          omega
        simp only [os_malloc, if_neg hn, if_pos hthm]
        unfold heap_service
        dsimp only
        rw [hfind]
        dsimp only
        rw [if_neg hsplit]
        rfl
      have hafter : afterMalloc a n s =
          (⟨add_used_block ⟨fb.addr, fb.size, Status.alloc⟩ (preHeap s).used,
            fl', (preHeap s).mapped, (preHeap s).brk⟩ : AllocState) := by
        simp only [afterMalloc, hmal, Option.getD_some]
      rw [hafter]
      obtain ⟨hfree, hcap⟩ := malloc_free_roundtrip_heap (preHeap s).used fl'
        (preHeap s).mapped (preHeap s).brk ⟨fb.addr, fb.size, Status.alloc⟩
        rfl hnotin hp0
      have hafterF : afterFree (fb.addr + METADATA_SIZE)
          (⟨add_used_block ⟨fb.addr, fb.size, Status.alloc⟩ (preHeap s).used,
            fl', (preHeap s).mapped, (preHeap s).brk⟩ : AllocState) =
          (⟨eraseBlock fb.addr
              (add_used_block ⟨fb.addr, fb.size, Status.alloc⟩ (preHeap s).used),
            coalesce_free_blocks (add_free_block ⟨fb.addr, fb.size, Status.alloc⟩ fl'),
            (preHeap s).mapped, (preHeap s).brk⟩ : AllocState) := by
        simp only [afterFree, hfree, Option.getD_some]
      refine ⟨hmal, ?_, ?_⟩
      · rw [hafterF]
        exact hfree
      · rw [hafterF]
        dsimp only
        rw [freeCapacity_coalesce, freeCapacity_add_free_block]
        dsimp only
        by_cases hpre : s.used = [] ∧ s.free = []
        · right
          refine ⟨hpre.1, hpre.2, ?_⟩
          have hps : preHeap s = prealloc_heap s := by
            unfold preHeap
            rw [if_pos hpre]
          have hcapS : freeCapacity (preHeap s).free = MMAP_THRESHOLD := by
            rw [hps]
            unfold prealloc_heap
            dsimp only
            rw [freeCapacity_cons]
            rfl
          have hcapS0 : freeCapacity s.free = 0 := by
            rw [hpre.2]; rfl
          omega
        · left
          have hps : preHeap s = s := by
            unfold preHeap
            rw [if_neg hpre]
          rw [hps] at hcap0
          omega

/-- C8 witness: on a fresh allocator, allocate(200000) is serviced by
mapping and its release restores the state exactly; allocate(100) is
serviced from the pre-allocated block and its release brings the free
capacity to MMAP_THRESHOLD, the one-time pre-allocation amount. -/
theorem C8_roundtrip_capacity_witness :
    (os_malloc 8192 200000 initState = some (some (8192 + METADATA_SIZE),
        { initState with mapped := ⟨8192, 200000, Status.mapped⟩ :: initState.mapped }) ∧
      os_free (8192 + METADATA_SIZE)
        { initState with mapped := ⟨8192, 200000, Status.mapped⟩ :: initState.mapped } =
        some initState) ∧
    (os_malloc 8192 100 initState =
        some (some (4096 + METADATA_SIZE), afterMalloc 8192 100 initState) ∧
      os_free (4096 + METADATA_SIZE) (afterMalloc 8192 100 initState) =
        some (afterFree (4096 + METADATA_SIZE) (afterMalloc 8192 100 initState)) ∧
      (freeCapacity (afterFree (4096 + METADATA_SIZE) (afterMalloc 8192 100 initState)).free
          = freeCapacity initState.free ∨
        (initState.used = [] ∧ initState.free = [] ∧
          freeCapacity (afterFree (4096 + METADATA_SIZE) (afterMalloc 8192 100 initState)).free
            = freeCapacity initState.free + MMAP_THRESHOLD))) := by
  constructor
  · exact (C8_roundtrip_capacity 8192 200000 initState (by decide)).1 (by decide)
      (by decide) (by decide)
  · exact (C8_roundtrip_capacity 8192 100 initState (by decide)).2 (by decide)
      ⟨4096, 131040, Status.free⟩ [] (by decide) (by decide)

/-! ### Membership lemmas for the list operations -/

theorem sub64_dvd8 (x y : Nat) (hx : 8 ∣ x) (hy : 8 ∣ y) : 8 ∣ sub64 x y := by
  unfold sub64
  omega

theorem mem_add_used_block (x b : Block) (l : List Block)
    (h : x ∈ add_used_block b l) :
    x = { b with status := Status.alloc } ∨ x ∈ l := by
  obtain ⟨l1, l2, he, hl⟩ := add_used_block_decomp b l
  rw [he] at h
  rw [hl]
  rcases List.mem_append.mp h with h1 | h2
  · right; exact List.mem_append_left l2 h1
  · rcases List.mem_cons.mp h2 with h3 | h4
    · left; exact h3
    · right; exact List.mem_append_right l1 h4

theorem mem_add_free_block (x b : Block) (l : List Block)
    (h : x ∈ add_free_block b l) :
    x = { b with status := Status.free } ∨ x ∈ l := by
  obtain ⟨l1, l2, he, hl⟩ := add_free_block_decomp b l
  rw [he] at h
  rw [hl]
  rcases List.mem_append.mp h with h1 | h2
  · right; exact List.mem_append_left l2 h1
  · rcases List.mem_cons.mp h2 with h3 | h4
    · left; exact h3
    · right; exact List.mem_append_right l1 h4

theorem mem_eraseBlock (x : Block) (a : Nat) (l : List Block)
    (h : x ∈ eraseBlock a l) : x ∈ l :=
  (List.eraseP_sublist l).mem h

theorem mem_coalesce_go (P : Block → Prop)
    (hmerge : ∀ x y, P x → P y → P { x with size := x.size + y.size + METADATA_SIZE })
    (a : Block) (l : List Block) (ha : P a) (hl : ∀ b ∈ l, P b) :
    ∀ b ∈ coalesce_go a l, P b := by
  induction l generalizing a with
  | nil =>
    intro b hb
    simp only [coalesce_go, List.mem_singleton] at hb
    rw [hb]; exact ha
  | cons c rest ih =>
    intro b hb
    by_cases h : a.addr + a.size + METADATA_SIZE = c.addr
    · simp only [coalesce_go, if_pos h] at hb
      exact ih _ (hmerge a c ha (hl c (List.mem_cons_self c rest)))
        (fun y hy => hl y (List.mem_cons_of_mem c hy)) b hb
    · simp only [coalesce_go, if_neg h] at hb
      rcases List.mem_cons.mp hb with h1 | h2
      · rw [h1]; exact ha
      · exact ih c (hl c (List.mem_cons_self c rest))
          (fun y hy => hl y (List.mem_cons_of_mem c hy)) b h2

theorem mem_coalesce (P : Block → Prop)
    (hmerge : ∀ x y, P x → P y → P { x with size := x.size + y.size + METADATA_SIZE })
    (l : List Block) (hl : ∀ b ∈ l, P b) :
    ∀ b ∈ coalesce_free_blocks l, P b := by
  cases l with
  | nil => intro b hb; cases hb
  | cons a t =>
    exact mem_coalesce_go P hmerge a t (hl a (List.mem_cons_self a t))
      (fun y hy => hl y (List.mem_cons_of_mem a hy))

theorem walk_ge_go_mem (x : Nat) (b : Block) (l : List Block) :
    walk_ge_go x b l ∈ b :: l := by
  induction l generalizing b with
  | nil => simp [walk_ge_go]
  | cons c rest ih =>
    simp only [walk_ge_go]
    split
    · exact List.mem_cons_of_mem b (ih c)
    · exact List.mem_cons_self b _

theorem walk_lt_go_mem (x : Nat) (b : Block) (l : List Block) :
    walk_lt_go x b l ∈ b :: l := by
  induction l generalizing b with
  | nil => simp [walk_lt_go]
  | cons c rest ih =>
    simp only [walk_lt_go]
    split
    · exact List.mem_cons_of_mem b (ih c)
    · exact List.mem_cons_self b _

theorem walk_ge_mem (x : Nat) (l : List Block) (b : Block)
    (h : walk_ge x l = some b) : b ∈ l := by
  cases l with
  | nil => cases h
  | cons c t =>
    simp only [walk_ge, Option.some.injEq] at h
    rw [← h]
    exact walk_ge_go_mem x c t

theorem getLast?_mem (l : List Block) (b : Block) (h : l.getLast? = some b) :
    b ∈ l :=
  List.mem_of_mem_getLast? h

theorem findBlock_mem (a : Nat) (s : AllocState) (b : Block)
    (h : findBlock a s = some b) :
    (b ∈ s.used ∨ b ∈ s.free ∨ b ∈ s.mapped) ∧ b.addr = a := by
  unfold findBlock at h
  have hm := List.mem_of_find?_eq_some h
  have hp := List.find?_some h
  constructor
  · rcases List.mem_append.mp hm with h1 | h2
    · rcases List.mem_append.mp h1 with h3 | h4
      · exact Or.inl h3
      · exact Or.inr (Or.inl h4)
    · exact Or.inr (Or.inr h2)
  · simpa using hp

theorem get_next_block_mem (x : Nat) (s : AllocState) (nb : Block)
    (h : get_next_block x s = some nb) : nb ∈ s.used ∨ nb ∈ s.free := by
  unfold get_next_block at h
  cases hf : s.free with
  | nil =>
    rw [hf] at h
    left
    exact walk_ge_mem x s.used nb h
  | cons f ft =>
    rw [hf] at h
    dsimp only at h
    have hmemf : walk_ge_go x f ft ∈ f :: ft := walk_ge_go_mem x f ft
    cases hu : walk_ge x s.used with
    | none =>
      rw [hu] at h
      dsimp only at h
      obtain rfl := Option.some.inj h
      right; exact hmemf
    | some lub =>
      rw [hu] at h
      dsimp only at h
      have hmemu : lub ∈ s.used := walk_ge_mem x s.used lub hu
      by_cases h1 : lub.addr ≤ x
      · rw [if_pos h1] at h
        obtain rfl := Option.some.inj h
        right; exact hmemf
      · rw [if_neg h1] at h
        by_cases h2 : (walk_ge_go x f ft).addr ≤ x
        · rw [if_pos h2] at h
          obtain rfl := Option.some.inj h
          left; exact hmemu
        · rw [if_neg h2] at h
          by_cases h3 : lub.addr < (walk_ge_go x f ft).addr
          · rw [if_pos h3] at h
            obtain rfl := Option.some.inj h
            left; exact hmemu
          · rw [if_neg h3] at h
            obtain rfl := Option.some.inj h
            right; exact hmemf

/-! ### Preservation of the state invariant -/

theorem snd_of_some_pair {α β : Type} (x : α × β) (p : α) (q : β)
    (h : some x = some (p, q)) : q = x.2 :=
  (congrArg Prod.snd (Option.some.inj h)).symm

theorem inv_prealloc (s : AllocState) (h : StateInv s) : StateInv (prealloc_heap s) := by
  obtain ⟨hu, hf0, hm, hb8, hb4⟩ := h
  have hconst : 128 * MULT_KB = 131072 := rfl
  have hm32 : METADATA_SIZE = 32 := rfl
  unfold prealloc_heap
  refine ⟨?_, ?_, ?_, ?_, ?_⟩ <;> dsimp only
  · exact hu
  · intro b hb
    simp only [List.mem_singleton] at hb
    rw [hb]
    exact ⟨⟨hb8, by dsimp only; omega, hb4⟩, rfl⟩
  · exact hm
  · omega
  · omega

theorem inv_preHeap (s : AllocState) (h : StateInv s) : StateInv (preHeap s) := by
  unfold preHeap
  split
  · exact inv_prealloc s h
  · exact h

theorem inv_fresh_extension (size : Nat) (s : AllocState) (h : StateInv s) :
    StateInv (fresh_extension size s).2 := by
  obtain ⟨hu, hf0, hm, hb8, hb4⟩ := h
  have hpad := dvd_add_calculate_padding size
  have hm32 : METADATA_SIZE = 32 := rfl
  unfold fresh_extension
  dsimp only
  refine ⟨?_, hf0, hm, ?_, ?_⟩
  · intro b hb
    rcases mem_add_used_block b _ _ hb with h1 | h2
    · rw [h1]
      exact ⟨⟨hb8, hpad, hb4⟩, rfl⟩
    · exact hu b h2
  · dsimp only
    omega
  · dsimp only
    omega

theorem inv_reuse (size : Nat) (s : AllocState) (p : Nat) (s' : AllocState)
    (h : StateInv s) (hsmall : ∀ b ∈ s.free, b.size < size)
    (hr : reuse_block_brk size s = ReuseResult.ok p s') : StateInv s' := by
  obtain ⟨hu, hf0, hm, hb8, hb4⟩ := h
  have hm32 : METADATA_SIZE = 32 := rfl
  unfold reuse_block_brk at hr
  split at hr
  · cases hr
  · cases hr
  · rename_i a1 a2 curr u ut hlast hused
    dsimp only at hr
    have hcurr : curr ∈ s.free := getLast?_mem s.free curr hlast
    obtain ⟨⟨hc8, hcs8, hc4⟩, hcst⟩ := hf0 curr hcurr
    have hpadeq : calculate_padding (curr.addr + size) = calculate_padding size :=
      calculate_padding_add_left curr.addr size hc8
    have hsizeok : 8 ∣ size + calculate_padding (curr.addr + size) := by
      rw [hpadeq]; exact dvd_add_calculate_padding size
    split at hr
    · split at hr
      · cases hr
        refine ⟨?_, ?_, hm, hb8, hb4⟩
        · intro b hb
          rcases mem_add_used_block b _ _ hb with h1 | h2
          · rw [h1]
            exact ⟨⟨hc8, hsizeok, hc4⟩, rfl⟩
          · exact hu b h2
        · intro b hb
          exact hf0 b (mem_eraseBlock b curr.addr s.free hb)
      · cases hr
    · cases hr
      refine ⟨?_, ?_, hm, ?_, ?_⟩
      · intro b hb
        rcases mem_add_used_block b _ _ hb with h1 | h2
        · rw [h1]
          exact ⟨⟨hc8, hsizeok, hc4⟩, rfl⟩
        · exact hu b h2
      · intro b hb
        exact hf0 b (mem_eraseBlock b curr.addr s.free hb)
      · have hd : 8 ∣ sub64 size curr.size + calculate_padding (curr.addr + size) := by
          rw [hpadeq]
          have h1 : 8 ∣ size + calculate_padding size := dvd_add_calculate_padding size
          have hcs : curr.size < size := hsmall curr hcurr
          unfold sub64
          omega
        dsimp only
        omega
      · dsimp only
        omega

theorem inv_increase (size : Nat) (s : AllocState) (p : Nat) (s' : AllocState)
    (h : StateInv s) (hsmall : ∀ b ∈ s.free, b.size < size)
    (hr : increase_brk size s = some (p, s')) : StateInv s' := by
  unfold increase_brk at hr
  split at hr
  · have h2 := snd_of_some_pair _ p s' hr
    rw [h2]
    exact inv_fresh_extension size s h
  · split at hr
    · cases hr
    · rename_i a1 s1 heq
      have h2 := snd_of_some_pair _ p s' hr
      rw [h2]
      exact inv_reuse size s a1 s1 h hsmall heq
    · have h2 := snd_of_some_pair _ p s' hr
      rw [h2]
      exact inv_fresh_extension size s h

theorem inv_heap_service (size : Nat) (s : AllocState) (p : Nat) (s' : AllocState)
    (h : StateInv s) (hr : heap_service size s = some (p, s')) : StateInv s' := by
  have hm32 : METADATA_SIZE = 32 := rfl
  have hpre : StateInv (preHeap s) := inv_preHeap s h
  unfold heap_service at hr
  dsimp only at hr
  cases hfind : find_place_brk size (preHeap s).free with
  | mk ofb free1 =>
    rw [hfind] at hr
    cases ofb with
    | none =>
      dsimp only at hr
      refine inv_increase size (preHeap s) p s' hpre ?_ hr
      exact (find_place_brk_none size (preHeap s).free).mp
        (by rw [hfind])
    | some fb =>
      dsimp only at hr
      obtain ⟨hfit, m1, m2, hsp, hsm, hrest⟩ :=
        find_place_brk_some size (preHeap s).free fb (by rw [hfind])
      have hfbmem : fb ∈ (preHeap s).free := by
        rw [hsp]; exact List.mem_append_right m1 (List.mem_cons_self fb m2)
      obtain ⟨hu, hf0, hm, hb8, hb4⟩ := hpre
      obtain ⟨⟨hfb8, hfbs8, hfb4⟩, _⟩ := hf0 fb hfbmem
      have hfree1 : free1 = m1 ++ m2 := by
        have h2 := congrArg Prod.snd hfind
        dsimp at h2
        rw [← h2, hrest]
      have hfl' : ∀ b ∈ free1, b ∈ (preHeap s).free := by
        intro b hb
        rw [hsp]
        rw [hfree1] at hb
        rcases List.mem_append.mp hb with h1 | h2
        · exact List.mem_append_left _ h1
        · exact List.mem_append_right _ (List.mem_cons_of_mem fb h2)
      have hpadsize : 8 ∣ size + calculate_padding (fb.addr + METADATA_SIZE + size) := by
        rw [calculate_padding_add_left (fb.addr + METADATA_SIZE) size (by omega)]
        exact dvd_add_calculate_padding size
      by_cases hc : (METADATA_SIZE : Int) + 1 ≤
          (fb.size : Int) - size - calculate_padding (fb.addr + METADATA_SIZE + size)
      · rw [if_pos hc] at hr
        have hs'eq := snd_of_some_pair _ p s' hr
        rw [hs'eq]
        refine ⟨?_, ?_, hm, hb8, hb4⟩
        · intro b hb
          rcases mem_add_used_block b _ _ hb with h1 | h2
          · rw [h1]
            exact ⟨⟨hfb8, hpadsize, hfb4⟩, rfl⟩
          · exact hu b h2
        · intro b hb
          rcases mem_add_free_block b _ _ hb with h1 | h2
          · rw [h1]
            refine ⟨⟨?_, ?_, ?_⟩, rfl⟩
            · exact dvd_add_calculate_padding (fb.addr + METADATA_SIZE + size)
            · dsimp only
              omega
            · dsimp only
              omega
          · exact hf0 b (hfl' b h2)
      · rw [if_neg hc] at hr
        have hs'eq := snd_of_some_pair _ p s' hr
        rw [hs'eq]
        refine ⟨?_, ?_, hm, hb8, hb4⟩
        · intro b hb
          rcases mem_add_used_block b _ _ hb with h1 | h2
          · rw [h1]
            exact ⟨⟨hfb8, hfbs8, hfb4⟩, rfl⟩
          · exact hu b h2
        · intro b hb
          exact hf0 b (hfl' b hb)

theorem inv_mmap_service (a size : Nat) (s : AllocState) (h : StateInv s)
    (h8 : 8 ∣ a) (h4 : 4096 ≤ a) : StateInv (mmap_service a size s).2 := by
  obtain ⟨hu, hf0, hm, hb8, hb4⟩ := h
  unfold mmap_service
  refine ⟨hu, hf0, ?_, hb8, hb4⟩
  intro b hb
  rcases List.mem_cons.mp hb with h1 | h2
  · rw [h1]; exact ⟨h8, h4, rfl⟩
  · exact hm b h2

theorem inv_os_malloc (a n : Nat) (s : AllocState) (r : Option Nat) (s' : AllocState)
    (h : StateInv s) (h8 : 8 ∣ a) (h4 : 4096 ≤ a)
    (hr : os_malloc a n s = some (r, s')) : StateInv s' := by
  unfold os_malloc at hr
  split at hr
  · have h2 := snd_of_some_pair _ r s' hr
    rw [h2]; exact h
  · split at hr
    · cases hhs : heap_service n s with
      | none => rw [hhs] at hr; cases hr
      | some v =>
        rw [hhs] at hr
        simp only [Option.map_some'] at hr
        have h2 := snd_of_some_pair _ r s' hr
        rw [h2]
        exact inv_heap_service n s v.1 v.2 h (by rw [hhs])
    · dsimp only at hr
      have h2 := snd_of_some_pair _ r s' hr
      rw [h2]
      exact inv_mmap_service a n s h h8 h4

theorem inv_os_calloc (a m k : Nat) (s : AllocState) (r : Option Nat) (s' : AllocState)
    (h : StateInv s) (h8 : 8 ∣ a) (h4 : 4096 ≤ a)
    (hr : os_calloc a m k s = some (r, s')) : StateInv s' := by
  unfold os_calloc at hr
  dsimp only at hr
  split at hr
  · have h2 := snd_of_some_pair _ r s' hr
    rw [h2]; exact h
  · split at hr
    · cases hhs : heap_service (callocTotal m k) s with
      | none => rw [hhs] at hr; cases hr
      | some v =>
        rw [hhs] at hr
        simp only [Option.map_some'] at hr
        have h2 := snd_of_some_pair _ r s' hr
        rw [h2]
        exact inv_heap_service (callocTotal m k) s v.1 v.2 h (by rw [hhs])
    · have h2 := snd_of_some_pair _ r s' hr
      rw [h2]
      exact inv_mmap_service a (callocTotal m k) s h h8 h4

theorem inv_os_free (p : Nat) (s : AllocState) (s' : AllocState)
    (h : StateInv s) (hr : os_free p s = some s') : StateInv s' := by
  obtain ⟨hu, hf0, hm, hb8, hb4⟩ := h
  have hm32 : METADATA_SIZE = 32 := rfl
  unfold os_free at hr
  split at hr
  · cases hr; exact ⟨hu, hf0, hm, hb8, hb4⟩
  · split at hr
    · cases hr
    · rename_i blk hfind
      split at hr
      · rename_i hst
        cases hr
        obtain ⟨hmem, haddr⟩ := findBlock_mem _ s blk hfind
        have hblk : GoodBlock blk := by
          rcases hmem with h1 | h2 | h3
          · exact (hu blk h1).1
          · exact (hf0 blk h2).1
          · have hc := (hm blk h3).2.2
            rw [hst] at hc; cases hc
        refine ⟨?_, ?_, hm, hb8, hb4⟩
        · intro b hb
          exact hu b (mem_eraseBlock b blk.addr s.used hb)
        · intro b hb
          refine mem_coalesce (fun x => GoodBlock x ∧ x.status = Status.free) ?_ _ ?_ b hb
          · intro x y hx hy
            refine ⟨⟨hx.1.1, ?_, hx.1.2.2⟩, hx.2⟩
            have h1 := hx.1.2.1
            have h2 := hy.1.2.1
            dsimp only
            omega
          · intro x hx
            rcases mem_add_free_block x blk s.free hx with h1 | h2
            · rw [h1]
              exact ⟨⟨hblk.1, hblk.2.1, hblk.2.2⟩, rfl⟩
            · exact hf0 x h2
      · split at hr
        · cases hr
          refine ⟨hu, hf0, ?_, hb8, hb4⟩
          intro b hb
          exact hm b (mem_eraseBlock b blk.addr s.mapped hb)
        · cases hr

theorem inv_used_setSize (u : List Block) (addr newSize : Nat)
    (hu : ∀ b ∈ u, GoodBlock b ∧ b.status = Status.alloc)
    (hns : 8 ∣ newSize) :
    ∀ b ∈ u.map (fun b => if b.addr = addr then { b with size := newSize } else b),
      GoodBlock b ∧ b.status = Status.alloc := by
  intro b hb
  obtain ⟨x, hx, hfx⟩ := List.mem_map.mp hb
  obtain ⟨⟨hx8, hxs, hx4⟩, hxst⟩ := hu x hx
  by_cases hxa : x.addr = addr
  · rw [← hfx, if_pos hxa]
    exact ⟨⟨hx8, hns, hx4⟩, hxst⟩
  · rw [← hfx, if_neg hxa]
    exact ⟨⟨hx8, hxs, hx4⟩, hxst⟩

theorem inv_realloc_heap_tail (a p n : Nat) (s : AllocState) (blk : Block)
    (r : Option Nat) (s' : AllocState)
    (h : StateInv s) (h8 : 8 ∣ a) (h4 : 4096 ≤ a)
    (hgood : GoodBlock blk)
    (hr : realloc_heap_tail a p n s blk = some (r, s')) : StateInv s' := by
  obtain ⟨hu, hf0, hm, hb8, hb4⟩ := h
  have hm32 : METADATA_SIZE = 32 := rfl
  have hpd : 8 ∣ n + calculate_padding n := dvd_add_calculate_padding n
  have hplt : calculate_padding n < 8 := calculate_padding_lt n
  obtain ⟨hg8, hgs, hg4⟩ := hgood
  unfold realloc_heap_tail at hr
  dsimp only at hr
  by_cases h1 : n < blk.size
  · rw [if_pos h1] at hr
    by_cases h2 : METADATA_SIZE + 1 < sub64 (sub64 blk.size n) (calculate_padding n)
    · rw [if_pos h2] at hr
      have hs'eq := snd_of_some_pair _ r s' hr
      rw [hs'eq]
      dsimp only
      refine ⟨inv_used_setSize s.used blk.addr (n + calculate_padding n) hu hpd,
        ?_, hm, hb8, hb4⟩
      intro b hb
      rcases mem_add_free_block b _ _ hb with hb1 | hb2
      · rw [hb1]
        refine ⟨⟨?_, ?_, ?_⟩, rfl⟩
        · dsimp only
          omega
        · dsimp only
          simp only [sub64]
          omega
        · dsimp only
          omega
      · exact hf0 b hb2
    · rw [if_neg h2] at hr
      have hs'eq := snd_of_some_pair _ r s' hr
      rw [hs'eq]
      exact ⟨hu, hf0, hm, hb8, hb4⟩
  · rw [if_neg h1] at hr
    cases hnb : get_next_block blk.addr s with
    | none => rw [hnb] at hr; cases hr
    | some nb =>
      rw [hnb] at hr
      dsimp only at hr
      have hnbmem := get_next_block_mem blk.addr s nb hnb
      have hnbgood : GoodBlock nb := by
        rcases hnbmem with hq | hq
        · exact (hu nb hq).1
        · exact (hf0 nb hq).1
      obtain ⟨hn8, hns8, hn4⟩ := hnbgood
      by_cases h3 : blk.addr + METADATA_SIZE + n + calculate_padding n < nb.addr
      · rw [if_pos h3] at hr
        have hs'eq := snd_of_some_pair _ r s' hr
        rw [hs'eq]
        dsimp only
        exact ⟨inv_used_setSize s.used blk.addr (n + calculate_padding n) hu hpd,
          hf0, hm, hb8, hb4⟩
      · rw [if_neg h3] at hr
        by_cases hba : blk.addr = nb.addr
        · rw [if_pos hba] at hr
          have hs'eq := snd_of_some_pair _ r s' hr
          rw [hs'eq]
          dsimp only
          refine ⟨inv_used_setSize s.used blk.addr (n + calculate_padding n) hu hpd,
            hf0, hm, ?_, ?_⟩
          · have hdd := sub64_dvd8 (n + calculate_padding n) blk.size hpd hgs
            dsimp only
            omega
          · dsimp only
            omega
        · rw [if_neg hba] at hr
          by_cases h5 : nb.status = Status.free ∧
              blk.addr + METADATA_SIZE + n + calculate_padding n ≤
                nb.addr + METADATA_SIZE + nb.size
          · rw [if_pos h5] at hr
            by_cases h6 : (METADATA_SIZE : Int) + 1 <
                (nb.addr : Int) + nb.size - blk.addr - n - calculate_padding n
            · rw [if_pos h6] at hr
              have hs'eq := snd_of_some_pair _ r s' hr
              rw [hs'eq]
              dsimp only
              refine ⟨inv_used_setSize s.used blk.addr (n + calculate_padding n) hu hpd,
                ?_, hm, hb8, hb4⟩
              intro b hb
              rcases mem_add_free_block b _ _ hb with hb1 | hb2
              · rw [hb1]
                refine ⟨⟨?_, ?_, ?_⟩, rfl⟩
                · dsimp only
                  omega
                · dsimp only
                  omega
                · dsimp only
                  omega
              · exact hf0 b (mem_eraseBlock b nb.addr s.free hb2)
            · rw [if_neg h6] at hr
              have hs'eq := snd_of_some_pair _ r s' hr
              rw [hs'eq]
              dsimp only
              refine ⟨?_, ?_, hm, hb8, hb4⟩
              · refine inv_used_setSize s.used blk.addr
                  (n + calculate_padding n +
                    ((nb.addr : Int) + nb.size - blk.addr - n
                      - calculate_padding n).toNat) hu ?_
                have hge := h5.2
                omega
              · intro b hb
                exact hf0 b (mem_eraseBlock b nb.addr s.free hb)
          · rw [if_neg h5] at hr
            cases hmal : os_malloc a n s with
            | none => rw [hmal] at hr; cases hr
            | some v =>
              rw [hmal] at hr
              dsimp only at hr
              cases hfr : os_free p v.2 with
              | none => rw [hfr] at hr; cases hr
              | some s2 =>
                rw [hfr] at hr
                simp only [Option.map_some'] at hr
                have hs'eq := snd_of_some_pair _ r s' hr
                rw [hs'eq]
                exact inv_os_free p v.2 s2
                  (inv_os_malloc a n s v.1 v.2 ⟨hu, hf0, hm, hb8, hb4⟩ h8 h4 (by rw [hmal]))
                  hfr

theorem inv_os_realloc (a p n : Nat) (s : AllocState) (r : Option Nat) (s' : AllocState)
    (h : StateInv s) (h8 : 8 ∣ a) (h4 : 4096 ≤ a)
    (hr : os_realloc a p n s = some (r, s')) : StateInv s' := by
  unfold os_realloc at hr
  split at hr
  · exact inv_os_malloc a n s r s' h h8 h4 hr
  · split at hr
    · cases hfr : os_free p s with
      | none => rw [hfr] at hr; cases hr
      | some s2 =>
        rw [hfr] at hr
        simp only [Option.map_some'] at hr
        have hs'eq := snd_of_some_pair _ r s' hr
        rw [hs'eq]
        exact inv_os_free p s s2 h hfr
    · split at hr
      · cases hr
      · rename_i blk hfind
        split at hr
        · have hs'eq := snd_of_some_pair _ r s' hr
          rw [hs'eq]
          exact h
        · split at hr
          · have hs'eq := snd_of_some_pair _ r s' hr
            rw [hs'eq]
            exact h
          · split at hr
            · -- MAPPED relocation
              cases hmal : os_malloc a n s with
              | none => rw [hmal] at hr; cases hr
              | some v =>
                rw [hmal] at hr
                dsimp only at hr
                cases hfr : os_free p v.2 with
                | none => rw [hfr] at hr; cases hr
                | some s2 =>
                  rw [hfr] at hr
                  simp only [Option.map_some'] at hr
                  have hs'eq := snd_of_some_pair _ r s' hr
                  rw [hs'eq]
                  exact inv_os_free p v.2 s2
                    (inv_os_malloc a n s v.1 v.2 h h8 h4 (by rw [hmal])) hfr
            · -- ALLOCATED heap tail
              rename_i hstf hsz hstm
              have hgood : GoodBlock blk := by
                obtain ⟨hmem, haddr⟩ := findBlock_mem (p - METADATA_SIZE) s blk hfind
                obtain ⟨hu, hf0, hm, _, _⟩ := h
                rcases hmem with h1 | h2 | h3
                · exact (hu blk h1).1
                · exact absurd (hf0 blk h2).2 hstf
                · exact absurd (hm blk h3).2.2 hstm
              exact inv_realloc_heap_tail a p n s blk r s' h h8 h4 hgood hr

/-- Every reachable state satisfies the state invariant. -/
theorem reachable_inv (s : AllocState) (h : Reachable s) : StateInv s := by
  induction h with
  | init =>
    refine ⟨?_, ?_, ?_, ?_, ?_⟩
    · intro b hb; cases hb
    · intro b hb; cases hb
    · intro b hb; cases hb
    · exact ⟨512, rfl⟩
    · exact Nat.le_refl 4096
  | malloc s s' a n r _ h8 h4 _ _ hmal ih =>
    exact inv_os_malloc a n s r s' ih h8 h4 hmal
  | free s s' p _ hfr ih =>
    exact inv_os_free p s s' ih hfr
  | calloc s s' a m k r _ h8 h4 _ hcal ih =>
    exact inv_os_calloc a m k s r s' ih h8 h4 hcal
  | realloc s s' a p n r _ h8 h4 _ _ hre ih =>
    exact inv_os_realloc a p n s r s' ih h8 h4 hre

/-! ### Claim C2: mapped blocks and the lists -/

/-- C2 counterexample.  The claim states that every MAPPED allocation is
inserted into the used list.  A large request on a fresh allocator is
serviced by mapping (osmem.c lines 343-351) and joins no list: the used
list stays empty, so the MAPPED block is not a member of it. -/
theorem C2_counterexample :
    os_malloc 8192 200000 initState =
      some (some 8224, ⟨[], [], [⟨8192, 200000, Status.mapped⟩], 4096⟩) ∧
    (⟨8192, 200000, Status.mapped⟩ : Block) ∉
      (⟨[], [], [⟨8192, 200000, Status.mapped⟩], 4096⟩ : AllocState).used :=
  ⟨by decide, by decide⟩

/-- C2 amended: MAPPED blocks are inserted into no list at all.  In every
reachable state no member of the used list and no member of the free list
has status MAPPED (add_used_block stamps STATUS_ALLOC and add_free_block
stamps STATUS_FREE on everything they insert, and the mapping path of
os_malloc and os_calloc never calls either); in particular a MAPPED block
never re-enters the free list. -/
theorem C2_mapped_not_in_lists (s : AllocState) (h : Reachable s) :
    (∀ b ∈ s.used, b.status ≠ Status.mapped) ∧
    (∀ b ∈ s.free, b.status ≠ Status.mapped) := by
  obtain ⟨hu, hf0, _, _, _⟩ := reachable_inv s h
  constructor
  · intro b hb hc
    rw [(hu b hb).2] at hc
    cases hc
  · intro b hb hc
    rw [(hf0 b hb).2] at hc
    cases hc

/-- C2 witness: after allocate(100) and allocate(200000) from a fresh
allocator the state holds one heap block, one free block and one mapped
block; the theorem applied to the heap block on the used list shows its
status is not MAPPED. -/
theorem C2_mapped_not_in_lists_witness :
    (⟨4096, 104, Status.alloc⟩ : Block).status ≠ Status.mapped := by
  have h1 : Reachable ⟨[⟨4096, 104, Status.alloc⟩], [⟨4232, 130904, Status.free⟩],
      [], 135168⟩ :=
    Reachable.malloc initState
      ⟨[⟨4096, 104, Status.alloc⟩], [⟨4232, 130904, Status.free⟩], [], 135168⟩
      4096 100 (some 4128) Reachable.init (by omega) (by omega)
      (by decide) (by decide) (by decide)
  have h2 : Reachable ⟨[⟨4096, 104, Status.alloc⟩], [⟨4232, 130904, Status.free⟩],
      [⟨1048576, 200000, Status.mapped⟩], 135168⟩ :=
    Reachable.malloc _ _ 1048576 200000 (some 1048608) h1 (by omega) (by omega)
      (by decide) (by decide) (by decide)
  exact (C2_mapped_not_in_lists _ h2).1 ⟨4096, 104, Status.alloc⟩ (by decide)

/-! ### Returned pointers -/

theorem fst_of_some_pair {α β : Type} (x : α × β) (p : α) (q : β)
    (h : some x = some (p, q)) : p = x.1 :=
  (congrArg Prod.fst (Option.some.inj h)).symm

theorem addr_mem_add_used (b : Block) (l : List Block) :
    b.addr ∈ (add_used_block b l).map Block.addr := by
  obtain ⟨l1, l2, he, hl⟩ := add_used_block_decomp b l
  rw [he]
  simp

theorem reuse_ptr (size : Nat) (s : AllocState) (p : Nat) (s' : AllocState)
    (h : StateInv s)
    (hr : reuse_block_brk size s = ReuseResult.ok p s') :
    8 ∣ p ∧ 4096 ≤ p ∧ p ∈ s'.used.map Block.addr := by
  obtain ⟨hu, hf0, hm, hb8, hb4⟩ := h
  unfold reuse_block_brk at hr
  split at hr
  · cases hr
  · cases hr
  · rename_i a1 a2 curr u ut hlast hused
    dsimp only at hr
    have hcurr : curr ∈ s.free := getLast?_mem s.free curr hlast
    obtain ⟨⟨hc8, hcs8, hc4⟩, hcst⟩ := hf0 curr hcurr
    split at hr
    · split at hr
      · cases hr
        exact ⟨hc8, hc4, addr_mem_add_used _ s.used⟩
      · cases hr
    · cases hr
      exact ⟨hc8, hc4, addr_mem_add_used _ s.used⟩

theorem increase_ptr (size : Nat) (s : AllocState) (p : Nat) (s' : AllocState)
    (h : StateInv s)
    (hr : increase_brk size s = some (p, s')) :
    8 ∣ p ∧ 4096 ≤ p ∧ p ∈ s'.used.map Block.addr := by
  obtain ⟨hu, hf0, hm, hb8, hb4⟩ := h
  unfold increase_brk at hr
  split at hr
  · have hp := fst_of_some_pair _ p s' hr
    have hs'eq := snd_of_some_pair _ p s' hr
    rw [hp, hs'eq]
    exact ⟨hb8, hb4, addr_mem_add_used _ s.used⟩
  · split at hr
    · cases hr
    · rename_i a1 s1 heq
      have hp := fst_of_some_pair _ p s' hr
      have hs'eq := snd_of_some_pair _ p s' hr
      rw [hp, hs'eq]
      exact reuse_ptr size s a1 s1 ⟨hu, hf0, hm, hb8, hb4⟩ heq
    · have hp := fst_of_some_pair _ p s' hr
      have hs'eq := snd_of_some_pair _ p s' hr
      rw [hp, hs'eq]
      exact ⟨hb8, hb4, addr_mem_add_used _ s.used⟩

theorem heap_service_ptr (size : Nat) (s : AllocState) (p : Nat) (s' : AllocState)
    (h : StateInv s)
    (hr : heap_service size s = some (p, s')) :
    8 ∣ p ∧ 4096 ≤ p ∧ p ∈ s'.used.map Block.addr := by
  have hpre : StateInv (preHeap s) := inv_preHeap s h
  unfold heap_service at hr
  dsimp only at hr
  cases hfind : find_place_brk size (preHeap s).free with
  | mk ofb free1 =>
    rw [hfind] at hr
    cases ofb with
    | none =>
      dsimp only at hr
      exact increase_ptr size (preHeap s) p s' hpre hr
    | some fb =>
      dsimp only at hr
      obtain ⟨hfit, m1, m2, hsp, hsm, hrest⟩ :=
        find_place_brk_some size (preHeap s).free fb (by rw [hfind])
      have hfbmem : fb ∈ (preHeap s).free := by
        rw [hsp]; exact List.mem_append_right m1 (List.mem_cons_self fb m2)
      obtain ⟨hu, hf0, hm, hb8, hb4⟩ := hpre
      obtain ⟨⟨hfb8, hfbs8, hfb4⟩, _⟩ := hf0 fb hfbmem
      split at hr
      · have hp := fst_of_some_pair _ p s' hr
        have hs'eq := snd_of_some_pair _ p s' hr
        rw [hp, hs'eq]
        exact ⟨hfb8, hfb4, addr_mem_add_used _ (preHeap s).used⟩
      · have hp := fst_of_some_pair _ p s' hr
        have hs'eq := snd_of_some_pair _ p s' hr
        rw [hp, hs'eq]
        exact ⟨hfb8, hfb4, addr_mem_add_used _ (preHeap s).used⟩

theorem os_malloc_ptr (a n : Nat) (s : AllocState) (p : Nat) (s' : AllocState)
    (h : StateInv s) (h8 : 8 ∣ a) (h4 : 4096 ≤ a)
    (hr : os_malloc a n s = some (some p, s')) :
    8 ∣ p ∧ METADATA_SIZE ≤ p ∧
      (p - METADATA_SIZE) ∈ (s'.used ++ s'.mapped).map Block.addr := by
  have hm32 : METADATA_SIZE = 32 := rfl
  unfold os_malloc at hr
  split at hr
  · have := fst_of_some_pair _ (some p) s' hr
    exact Option.noConfusion this
  · split at hr
    · cases hhs : heap_service n s with
      | none => rw [hhs] at hr; cases hr
      | some v =>
        rw [hhs] at hr
        simp only [Option.map_some'] at hr
        have hp := fst_of_some_pair _ (some p) s' hr
        have hs'eq := snd_of_some_pair _ (some p) s' hr
        obtain rfl := Option.some.inj hp
        obtain ⟨hv8, hv4, hvmem⟩ := heap_service_ptr n s v.1 v.2 h (by rw [hhs])
        refine ⟨by omega, by omega, ?_⟩
        rw [hs'eq]
        have hsub : v.1 + METADATA_SIZE - METADATA_SIZE = v.1 := by omega
        rw [hsub, List.map_append]
        exact List.mem_append_left _ hvmem
    · dsimp only at hr
      have hp := fst_of_some_pair _ (some p) s' hr
      have hs'eq := snd_of_some_pair _ (some p) s' hr
      obtain rfl := Option.some.inj hp
      have hma : (mmap_service a n s).1 = a := rfl
      rw [hma]
      refine ⟨by omega, by omega, ?_⟩
      rw [hs'eq]
      have hsub : a + METADATA_SIZE - METADATA_SIZE = a := by omega
      rw [hsub]
      have hmm : (mmap_service a n s).2 =
          { s with mapped := ⟨a, n, Status.mapped⟩ :: s.mapped } := rfl
      rw [hmm]
      simp

theorem os_calloc_ptr (a m k : Nat) (s : AllocState) (p : Nat) (s' : AllocState)
    (h : StateInv s) (h8 : 8 ∣ a) (h4 : 4096 ≤ a)
    (hr : os_calloc a m k s = some (some p, s')) :
    8 ∣ p ∧ METADATA_SIZE ≤ p ∧
      (p - METADATA_SIZE) ∈ (s'.used ++ s'.mapped).map Block.addr := by
  have hm32 : METADATA_SIZE = 32 := rfl
  unfold os_calloc at hr
  dsimp only at hr
  split at hr
  · have := fst_of_some_pair _ (some p) s' hr
    exact Option.noConfusion this
  · split at hr
    · cases hhs : heap_service (callocTotal m k) s with
      | none => rw [hhs] at hr; cases hr
      | some v =>
        rw [hhs] at hr
        simp only [Option.map_some'] at hr
        have hp := fst_of_some_pair _ (some p) s' hr
        have hs'eq := snd_of_some_pair _ (some p) s' hr
        obtain rfl := Option.some.inj hp
        obtain ⟨hv8, hv4, hvmem⟩ :=
          heap_service_ptr (callocTotal m k) s v.1 v.2 h (by rw [hhs])
        refine ⟨by omega, by omega, ?_⟩
        rw [hs'eq]
        have hsub : v.1 + METADATA_SIZE - METADATA_SIZE = v.1 := by omega
        rw [hsub, List.map_append]
        exact List.mem_append_left _ hvmem
    · have hp := fst_of_some_pair _ (some p) s' hr
      have hs'eq := snd_of_some_pair _ (some p) s' hr
      obtain rfl := Option.some.inj hp
      have hma : (mmap_service a (callocTotal m k) s).1 = a := rfl
      rw [hma]
      refine ⟨by omega, by omega, ?_⟩
      rw [hs'eq]
      have hsub : a + METADATA_SIZE - METADATA_SIZE = a := by omega
      rw [hsub]
      have hmm : (mmap_service a (callocTotal m k) s).2 =
          { s with mapped := ⟨a, callocTotal m k, Status.mapped⟩ :: s.mapped } := rfl
      rw [hmm]
      simp

theorem realloc_ptr_aligned (p : Nat) (s : AllocState) (blk : Block)
    (h : StateInv s) (hfind : findBlock (p - METADATA_SIZE) s = some blk) :
    8 ∣ p ∧ METADATA_SIZE ≤ p := by
  obtain ⟨hmem, haddr⟩ := findBlock_mem _ s blk hfind
  obtain ⟨hu, hf0, hm, _, _⟩ := h
  have h8a : 8 ∣ blk.addr ∧ 4096 ≤ blk.addr := by
    rcases hmem with h1 | h2 | h3
    · exact ⟨(hu blk h1).1.1, (hu blk h1).1.2.2⟩
    · exact ⟨(hf0 blk h2).1.1, (hf0 blk h2).1.2.2⟩
    · exact ⟨(hm blk h3).1, (hm blk h3).2.1⟩
  have hm32 : METADATA_SIZE = 32 := rfl
  omega

theorem realloc_heap_tail_ptr (a p size : Nat) (s : AllocState) (blk : Block)
    (pr : Nat) (s' : AllocState)
    (h : StateInv s) (h8 : 8 ∣ a) (h4 : 4096 ≤ a)
    (hpa : 8 ∣ p ∧ METADATA_SIZE ≤ p)
    (hr : realloc_heap_tail a p size s blk = some (some pr, s')) :
    8 ∣ pr ∧ METADATA_SIZE ≤ pr := by
  unfold realloc_heap_tail at hr
  dsimp only at hr
  split at hr
  · split at hr
    · have hfst := fst_of_some_pair _ (some pr) s' hr
      obtain rfl := Option.some.inj hfst
      exact hpa
    · have hfst := fst_of_some_pair _ (some pr) s' hr
      obtain rfl := Option.some.inj hfst
      exact hpa
  · cases hnb : get_next_block blk.addr s with
    | none => rw [hnb] at hr; cases hr
    | some nb =>
      rw [hnb] at hr
      dsimp only at hr
      split at hr
      · have hfst := fst_of_some_pair _ (some pr) s' hr
        obtain rfl := Option.some.inj hfst
        exact hpa
      · split at hr
        · have hfst := fst_of_some_pair _ (some pr) s' hr
          obtain rfl := Option.some.inj hfst
          exact hpa
        · split at hr
          · split at hr
            · have hfst := fst_of_some_pair _ (some pr) s' hr
              obtain rfl := Option.some.inj hfst
              exact hpa
            · have hfst := fst_of_some_pair _ (some pr) s' hr
              obtain rfl := Option.some.inj hfst
              exact hpa
          · cases hmal : os_malloc a size s with
            | none => rw [hmal] at hr; cases hr
            | some v =>
              obtain ⟨np, s1⟩ := v
              rw [hmal] at hr
              dsimp only at hr
              cases hfr : os_free p s1 with
              | none => rw [hfr] at hr; cases hr
              | some s2 =>
                rw [hfr] at hr
                simp only [Option.map_some'] at hr
                have hfst := fst_of_some_pair _ (some pr) s' hr
                obtain ⟨d1, d2, _⟩ := os_malloc_ptr a size s pr s1 h h8 h4
                  (by rw [hmal, hfst])
                exact ⟨d1, d2⟩

theorem os_realloc_ptr (a q n : Nat) (s : AllocState) (p : Nat) (s' : AllocState)
    (h : StateInv s) (h8 : 8 ∣ a) (h4 : 4096 ≤ a)
    (hr : os_realloc a q n s = some (some p, s')) :
    8 ∣ p ∧ METADATA_SIZE ≤ p := by
  unfold os_realloc at hr
  split at hr
  · obtain ⟨d1, d2, _⟩ := os_malloc_ptr a n s p s' h h8 h4 hr
    exact ⟨d1, d2⟩
  · split at hr
    · cases hfr : os_free q s with
      | none => rw [hfr] at hr; cases hr
      | some s2 =>
        rw [hfr] at hr
        simp only [Option.map_some'] at hr
        have hfst := fst_of_some_pair _ (some p) s' hr
        exact Option.noConfusion hfst
    · cases hfind : findBlock (q - METADATA_SIZE) s with
      | none => rw [hfind] at hr; cases hr
      | some blk =>
        rw [hfind] at hr
        dsimp only at hr
        have hqa := realloc_ptr_aligned q s blk h hfind
        split at hr
        · have hfst := fst_of_some_pair _ (some p) s' hr
          exact Option.noConfusion hfst
        · split at hr
          · have hfst := fst_of_some_pair _ (some p) s' hr
            obtain rfl := Option.some.inj hfst
            exact hqa
          · split at hr
            · cases hmal : os_malloc a n s with
              | none => rw [hmal] at hr; cases hr
              | some v =>
                obtain ⟨np, s1⟩ := v
                rw [hmal] at hr
                dsimp only at hr
                cases hfr : os_free q s1 with
                | none => rw [hfr] at hr; cases hr
                | some s2 =>
                  rw [hfr] at hr
                  simp only [Option.map_some'] at hr
                  have hfst := fst_of_some_pair _ (some p) s' hr
                  obtain ⟨d1, d2, _⟩ := os_malloc_ptr a n s p s1 h h8 h4
                    (by rw [hmal, hfst])
                  exact ⟨d1, d2⟩
            · exact realloc_heap_tail_ptr a q n s blk p s' h h8 h4 hqa hr
theorem map_addr_map_of_preserve (f : Block → Block)
    (hf : ∀ b, (f b).addr = b.addr) (l : List Block) :
    (l.map f).map Block.addr = l.map Block.addr := by
  induction l with
  | nil => rfl
  | cons b t ih => simp [hf, ih]

theorem map_eraseBlock_mem (x p0 : Nat) (l : List Block)
    (h : p0 ∈ l.map Block.addr) (hne : p0 ≠ x) :
    p0 ∈ (eraseBlock x l).map Block.addr := by
  induction l with
  | nil => simp at h
  | cons b t ih =>
    simp only [List.map_cons, List.mem_cons] at h
    by_cases hb : b.addr = x
    · have hbe : eraseBlock x (b :: t) = t := by
        unfold eraseBlock
        rw [List.eraseP_cons_of_pos (by simp [hb])]
      rw [hbe]
      rcases h with h | h
      · exact absurd (h.trans hb) hne
      · exact h
    · have hbe : eraseBlock x (b :: t) = b :: eraseBlock x t := by
        unfold eraseBlock
        rw [List.eraseP_cons_of_neg (by simp [hb])]
      rw [hbe]
      simp only [List.map_cons, List.mem_cons]
      rcases h with h | h
      · exact Or.inl h
      · exact Or.inr (ih h)

theorem os_free_keeps_other (q0 p0 : Nat) (s1 s2 : AllocState)
    (hfr : os_free q0 s1 = some s2)
    (hmem : p0 ∈ (s1.used ++ s1.mapped).map Block.addr)
    (hne : p0 ≠ q0 - METADATA_SIZE) :
    p0 ∈ (s2.used ++ s2.mapped).map Block.addr := by
  unfold os_free at hfr
  split at hfr
  · obtain rfl := Option.some.inj hfr
    exact hmem
  · cases hfind : findBlock (q0 - METADATA_SIZE) s1 with
    | none => rw [hfind] at hfr; cases hfr
    | some fb =>
      rw [hfind] at hfr
      dsimp only at hfr
      have hfa : fb.addr = q0 - METADATA_SIZE := (findBlock_mem _ s1 fb hfind).2
      have hpfb : p0 ≠ fb.addr := by
        rw [hfa]
        exact hne
      by_cases hal : fb.status = Status.alloc
      · rw [if_pos hal] at hfr
        obtain rfl := Option.some.inj hfr
        dsimp only
        rw [List.map_append]
        rw [List.map_append] at hmem
        rcases List.mem_append.mp hmem with hm1 | hm1
        · exact List.mem_append.mpr
            (Or.inl (map_eraseBlock_mem fb.addr p0 s1.used hm1 hpfb))
        · exact List.mem_append.mpr (Or.inr hm1)
      · rw [if_neg hal] at hfr
        by_cases hmp : fb.status = Status.mapped
        · rw [if_pos hmp] at hfr
          obtain rfl := Option.some.inj hfr
          dsimp only
          rw [List.map_append]
          rw [List.map_append] at hmem
          rcases List.mem_append.mp hmem with hm1 | hm1
          · exact List.mem_append.mpr (Or.inl hm1)
          · exact List.mem_append.mpr
              (Or.inr (map_eraseBlock_mem fb.addr p0 s1.mapped hm1 hpfb))
        · rw [if_neg hmp] at hfr
          cases hfr

theorem reuse_src (size : Nat) (s : AllocState) (p : Nat) (s' : AllocState)
    (hr : reuse_block_brk size s = ReuseResult.ok p s') :
    p ∈ s.free.map Block.addr := by
  unfold reuse_block_brk at hr
  split at hr
  · cases hr
  · cases hr
  · rename_i a1 a2 curr u ut hlast hused
    dsimp only at hr
    have hcurr : curr ∈ s.free := getLast?_mem s.free curr hlast
    split at hr
    · split at hr
      · cases hr
        exact List.mem_map_of_mem Block.addr hcurr
      · cases hr
    · cases hr
      exact List.mem_map_of_mem Block.addr hcurr

theorem increase_src (size : Nat) (s : AllocState) (p : Nat) (s' : AllocState)
    (hr : increase_brk size s = some (p, s')) :
    p ∈ s.free.map Block.addr ∨ p = s.brk := by
  unfold increase_brk at hr
  split at hr
  · have hp := fst_of_some_pair _ p s' hr
    exact Or.inr hp
  · split at hr
    · cases hr
    · rename_i a1 s1 heq
      have hp := fst_of_some_pair _ p s' hr
      rw [hp]
      exact Or.inl (reuse_src size s a1 s1 heq)
    · have hp := fst_of_some_pair _ p s' hr
      exact Or.inr hp

theorem heap_service_src (size : Nat) (s : AllocState) (p : Nat) (s' : AllocState)
    (hr : heap_service size s = some (p, s')) :
    p ∈ s.free.map Block.addr ∨ p = s.brk := by
  obtain ⟨u, f, m, br⟩ := s
  by_cases hpre : u = ([] : List Block) ∧ f = ([] : List Block)
  · obtain ⟨rfl, rfl⟩ := hpre
    have hps : preHeap ⟨[], [], m, br⟩ = prealloc_heap ⟨[], [], m, br⟩ := by
      unfold preHeap
      rw [if_pos ⟨rfl, rfl⟩]
    unfold heap_service at hr
    dsimp only at hr
    rw [hps] at hr
    simp only [prealloc_heap, find_place_brk] at hr
    split at hr
    · simp [increase_brk, reuse_block_brk] at hr
    · rename_i fb free1 heq
      have hfb : fb.addr = br := by
        split at heq
        · have hh := congrArg Prod.fst heq
          dsimp only at hh
          obtain rfl := Option.some.inj hh
          rfl
        · have hh := congrArg Prod.fst heq
          dsimp only at hh
          exact Option.noConfusion hh
      split at hr
      · have hp := fst_of_some_pair _ p s' hr
        rw [hp, hfb]
        exact Or.inr rfl
      · have hp := fst_of_some_pair _ p s' hr
        rw [hp, hfb]
        exact Or.inr rfl
  · have hps : preHeap ⟨u, f, m, br⟩ = ⟨u, f, m, br⟩ := by
      unfold preHeap
      rw [if_neg hpre]
    unfold heap_service at hr
    dsimp only at hr
    rw [hps] at hr
    dsimp only at hr
    cases hfp : find_place_brk size f with
    | mk ofb fl1 =>
      rw [hfp] at hr
      cases ofb with
      | none =>
        dsimp only at hr
        exact increase_src size ⟨u, f, m, br⟩ p s' hr
      | some fb =>
        dsimp only at hr
        obtain ⟨hfit, l1, l2, hsp, hsm, hrest⟩ :=
          find_place_brk_some size f fb (by rw [hfp])
        have hfb : fb ∈ f := by
          rw [hsp]
          exact List.mem_append_right l1 (List.mem_cons_self fb l2)
        split at hr
        · have hp := fst_of_some_pair _ p s' hr
          rw [hp]
          exact Or.inl (List.mem_map_of_mem Block.addr hfb)
        · have hp := fst_of_some_pair _ p s' hr
          rw [hp]
          exact Or.inl (List.mem_map_of_mem Block.addr hfb)

theorem os_malloc_src (a n : Nat) (s : AllocState) (p : Nat) (s' : AllocState)
    (hr : os_malloc a n s = some (some p, s')) :
    p - METADATA_SIZE ∈ s.free.map Block.addr ∨ p - METADATA_SIZE = s.brk ∨
      p - METADATA_SIZE = a := by
  have hm32 : METADATA_SIZE = 32 := rfl
  unfold os_malloc at hr
  split at hr
  · have hfst := fst_of_some_pair _ (some p) s' hr
    exact Option.noConfusion hfst
  · split at hr
    · cases hhs : heap_service n s with
      | none => rw [hhs] at hr; cases hr
      | some v =>
        rw [hhs] at hr
        simp only [Option.map_some'] at hr
        have hp := fst_of_some_pair _ (some p) s' hr
        obtain rfl := Option.some.inj hp
        have hsub : v.1 + METADATA_SIZE - METADATA_SIZE = v.1 := by omega
        rw [hsub]
        rcases heap_service_src n s v.1 v.2 (by rw [hhs]) with h | h
        · exact Or.inl h
        · exact Or.inr (Or.inl h)
    · dsimp only at hr
      have hp := fst_of_some_pair _ (some p) s' hr
      obtain rfl := Option.some.inj hp
      have hma : (mmap_service a n s).1 = a := rfl
      rw [hma]
      have hsub : a + METADATA_SIZE - METADATA_SIZE = a := by omega
      rw [hsub]
      exact Or.inr (Or.inr rfl)

theorem mem_used_of_status_alloc (s : AllocState) (blk : Block) (h : StateInv s)
    (hmem : blk ∈ s.used ∨ blk ∈ s.free ∨ blk ∈ s.mapped)
    (hst : blk.status = Status.alloc) : blk ∈ s.used := by
  obtain ⟨hu, hf0, hm, _, _⟩ := h
  rcases hmem with h1 | h2 | h3
  · exact h1
  · rw [(hf0 blk h2).2] at hst
    cases hst
  · rw [(hm blk h3).2.2] at hst
    cases hst

theorem mem_mapped_of_status_mapped (s : AllocState) (blk : Block) (h : StateInv s)
    (hmem : blk ∈ s.used ∨ blk ∈ s.free ∨ blk ∈ s.mapped)
    (hst : blk.status = Status.mapped) : blk ∈ s.mapped := by
  obtain ⟨hu, hf0, hm, _, _⟩ := h
  rcases hmem with h1 | h2 | h3
  · rw [(hu blk h1).2] at hst
    cases hst
  · rw [(hf0 blk h2).2] at hst
    cases hst
  · exact h3

theorem realloc_heap_tail_ptr_mem (a q n : Nat) (s : AllocState) (blk : Block)
    (p : Nat) (s' : AllocState)
    (h : StateInv s) (h8 : 8 ∣ a) (h4 : 4096 ≤ a)
    (hdisj : ∀ x ∈ s.free, ∀ y ∈ s.used ++ s.mapped, x.addr ≠ y.addr)
    (hbound : ∀ b ∈ s.used ++ s.free, b.addr + METADATA_SIZE + b.size ≤ s.brk)
    (hfresh : ∀ b ∈ s.used ++ s.free ++ s.mapped, b.addr ≠ a)
    (hblk : blk ∈ s.used) (haddr : blk.addr = q - METADATA_SIZE)
    (hqal : 8 ∣ q ∧ METADATA_SIZE ≤ q)
    (hr : realloc_heap_tail a q n s blk = some (some p, s')) :
    8 ∣ p ∧ METADATA_SIZE ≤ p ∧
      (p - METADATA_SIZE) ∈ (s'.used ++ s'.mapped).map Block.addr := by
  have hm32 : METADATA_SIZE = 32 := rfl
  have hmems : (q - METADATA_SIZE) ∈ (s.used ++ s.mapped).map Block.addr := by
    rw [List.map_append]
    exact List.mem_append.mpr (Or.inl (haddr ▸ List.mem_map_of_mem Block.addr hblk))
  have hmemu : ∀ (f : Block → Block), (∀ b, (f b).addr = b.addr) →
      (q - METADATA_SIZE) ∈ ((s.used.map f) ++ s.mapped).map Block.addr := by
    intro f hf
    rw [List.map_append, map_addr_map_of_preserve f hf s.used]
    exact List.mem_append.mpr (Or.inl (haddr ▸ List.mem_map_of_mem Block.addr hblk))
  unfold realloc_heap_tail at hr
  dsimp only at hr
  split at hr
  · split at hr
    · have hpq : p = q := Option.some.inj (fst_of_some_pair _ (some p) s' hr)
      subst hpq
      have hs'eq := snd_of_some_pair _ (some p) s' hr
      refine ⟨hqal.1, hqal.2, ?_⟩
      rw [hs'eq]
      dsimp only
      exact hmemu _ (fun b => by split <;> rfl)
    · have hpq : p = q := Option.some.inj (fst_of_some_pair _ (some p) s' hr)
      subst hpq
      have hs'eq := snd_of_some_pair _ (some p) s' hr
      refine ⟨hqal.1, hqal.2, ?_⟩
      rw [hs'eq]
      exact hmems
  · cases hnb : get_next_block blk.addr s with
    | none => rw [hnb] at hr; cases hr
    | some nb =>
      rw [hnb] at hr
      dsimp only at hr
      split at hr
      · have hpq : p = q := Option.some.inj (fst_of_some_pair _ (some p) s' hr)
        subst hpq
        have hs'eq := snd_of_some_pair _ (some p) s' hr
        refine ⟨hqal.1, hqal.2, ?_⟩
        rw [hs'eq]
        dsimp only
        exact hmemu _ (fun b => by split <;> rfl)
      · split at hr
        · have hpq : p = q := Option.some.inj (fst_of_some_pair _ (some p) s' hr)
          subst hpq
          have hs'eq := snd_of_some_pair _ (some p) s' hr
          refine ⟨hqal.1, hqal.2, ?_⟩
          rw [hs'eq]
          dsimp only
          exact hmemu _ (fun b => by split <;> rfl)
        · split at hr
          · split at hr
            · have hpq : p = q := Option.some.inj (fst_of_some_pair _ (some p) s' hr)
              subst hpq
              have hs'eq := snd_of_some_pair _ (some p) s' hr
              refine ⟨hqal.1, hqal.2, ?_⟩
              rw [hs'eq]
              dsimp only
              exact hmemu _ (fun b => by split <;> rfl)
            · have hpq : p = q := Option.some.inj (fst_of_some_pair _ (some p) s' hr)
              subst hpq
              have hs'eq := snd_of_some_pair _ (some p) s' hr
              refine ⟨hqal.1, hqal.2, ?_⟩
              rw [hs'eq]
              dsimp only
              exact hmemu _ (fun b => by split <;> rfl)
          · cases hmal : os_malloc a n s with
            | none => rw [hmal] at hr; cases hr
            | some v =>
              obtain ⟨np, s1⟩ := v
              rw [hmal] at hr
              dsimp only at hr
              cases hfr : os_free q s1 with
              | none => rw [hfr] at hr; cases hr
              | some s2 =>
                rw [hfr] at hr
                simp only [Option.map_some'] at hr
                have hfst := fst_of_some_pair _ (some p) s' hr
                have hs'eq := snd_of_some_pair _ (some p) s' hr
                have hmal2 : os_malloc a n s = some (some p, s1) := by
                  rw [hmal, hfst]
                obtain ⟨d1, d2, dmem⟩ := os_malloc_ptr a n s p s1 h h8 h4 hmal2
                have hsrc := os_malloc_src a n s p s1 hmal2
                have hnotblk : p - METADATA_SIZE ≠ blk.addr := by
                  rcases hsrc with hsf | hsb | hsa
                  · rcases List.mem_map.mp hsf with ⟨x, hx, hxa⟩
                    have hxy := hdisj x hx blk (List.mem_append.mpr (Or.inl hblk))
                    omega
                  · have hbb := hbound blk
                      (List.mem_append.mpr (Or.inl hblk))
                    omega
                  · have ha := hfresh blk
                      (List.mem_append.mpr (Or.inl (List.mem_append.mpr (Or.inl hblk))))
                    omega
                have hne2 : p - METADATA_SIZE ≠ q - METADATA_SIZE := by
                  rw [← haddr]
                  exact hnotblk
                refine ⟨d1, d2, ?_⟩
                rw [hs'eq]
                exact os_free_keeps_other q (p - METADATA_SIZE) s1 s2 hfr dmem hne2

theorem os_realloc_ptr_mem (a q n : Nat) (s : AllocState) (p : Nat) (s' : AllocState)
    (h : StateInv s) (h8 : 8 ∣ a) (h4 : 4096 ≤ a)
    (hdisj : ∀ x ∈ s.free, ∀ y ∈ s.used ++ s.mapped, x.addr ≠ y.addr)
    (hbound : ∀ b ∈ s.used ++ s.free, b.addr + METADATA_SIZE + b.size ≤ s.brk)
    (hmb : ∀ b ∈ s.mapped, b.addr ≠ s.brk)
    (hfresh : ∀ b ∈ s.used ++ s.free ++ s.mapped, b.addr ≠ a)
    (hr : os_realloc a q n s = some (some p, s')) :
    8 ∣ p ∧ METADATA_SIZE ≤ p ∧
      (p - METADATA_SIZE) ∈ (s'.used ++ s'.mapped).map Block.addr := by
  have hm32 : METADATA_SIZE = 32 := rfl
  unfold os_realloc at hr
  split at hr
  · exact os_malloc_ptr a n s p s' h h8 h4 hr
  · split at hr
    · cases hfr : os_free q s with
      | none => rw [hfr] at hr; cases hr
      | some s2 =>
        rw [hfr] at hr
        simp only [Option.map_some'] at hr
        have hfst := fst_of_some_pair _ (some p) s' hr
        exact Option.noConfusion hfst
    · cases hfind : findBlock (q - METADATA_SIZE) s with
      | none => rw [hfind] at hr; cases hr
      | some blk =>
        rw [hfind] at hr
        dsimp only at hr
        have hqa := realloc_ptr_aligned q s blk h hfind
        obtain ⟨hmem3, haddr⟩ := findBlock_mem _ s blk hfind
        split at hr
        · have hfst := fst_of_some_pair _ (some p) s' hr
          exact Option.noConfusion hfst
        · rename_i hstf
          split at hr
          · have hpq : p = q := Option.some.inj (fst_of_some_pair _ (some p) s' hr)
            subst hpq
            have hs'eq := snd_of_some_pair _ (some p) s' hr
            refine ⟨hqa.1, hqa.2, ?_⟩
            rw [hs'eq]
            cases hst0 : blk.status with
            | alloc =>
              have hblk := mem_used_of_status_alloc s blk h hmem3 hst0
              rw [List.map_append]
              exact List.mem_append.mpr
                (Or.inl (haddr ▸ List.mem_map_of_mem Block.addr hblk))
            | free => exact absurd hst0 hstf
            | mapped =>
              have hblkm := mem_mapped_of_status_mapped s blk h hmem3 hst0
              rw [List.map_append]
              exact List.mem_append.mpr
                (Or.inr (haddr ▸ List.mem_map_of_mem Block.addr hblkm))
          · split at hr
            · rename_i hstm
              have hblkm := mem_mapped_of_status_mapped s blk h hmem3 hstm
              cases hmal : os_malloc a n s with
              | none => rw [hmal] at hr; cases hr
              | some v =>
                obtain ⟨np, s1⟩ := v
                rw [hmal] at hr
                dsimp only at hr
                cases hfr : os_free q s1 with
                | none => rw [hfr] at hr; cases hr
                | some s2 =>
                  rw [hfr] at hr
                  simp only [Option.map_some'] at hr
                  have hfst := fst_of_some_pair _ (some p) s' hr
                  have hs'eq := snd_of_some_pair _ (some p) s' hr
                  have hmal2 : os_malloc a n s = some (some p, s1) := by
                    rw [hmal, hfst]
                  obtain ⟨d1, d2, dmem⟩ := os_malloc_ptr a n s p s1 h h8 h4 hmal2
                  have hsrc := os_malloc_src a n s p s1 hmal2
                  have hnotblk : p - METADATA_SIZE ≠ blk.addr := by
                    rcases hsrc with hsf | hsb | hsa
                    · rcases List.mem_map.mp hsf with ⟨x, hx, hxa⟩
                      have hxy := hdisj x hx blk (List.mem_append.mpr (Or.inr hblkm))
                      omega
                    · have hbb := hmb blk hblkm
                      omega
                    · have ha := hfresh blk (List.mem_append.mpr (Or.inr hblkm))
                      omega
                  have hne2 : p - METADATA_SIZE ≠ q - METADATA_SIZE := by
                    rw [← haddr]
                    exact hnotblk
                  refine ⟨d1, d2, ?_⟩
                  rw [hs'eq]
                  exact os_free_keeps_other q (p - METADATA_SIZE) s1 s2 hfr dmem hne2
            · rename_i hstmn
              have hsta : blk.status = Status.alloc := by
                cases hst0 : blk.status with
                | alloc => rfl
                | free => exact absurd hst0 hstf
                | mapped => exact absurd hst0 hstmn
              have hblk := mem_used_of_status_alloc s blk h hmem3 hsta
              exact realloc_heap_tail_ptr_mem a q n s blk p s' h h8 h4
                hdisj hbound hfresh hblk haddr hqa hr

/-- C7: in every reachable state, every pointer returned by os_malloc,
os_calloc or os_realloc is 8-byte aligned, lies at least METADATA_SIZE
above zero, and is exactly METADATA_SIZE past the base of a block header
recorded in the resulting used or mapped list, i.e. it points to the first
byte after the block header of the serviced block.  The mmap oracle
address is 8-aligned, at or above the initial break, and fresh, as mmap
guarantees; for os_realloc the state additionally satisfies the spatial
facts true of every real heap: no free header coincides with a live
header, heap blocks lie below the program break, and mapped pages are not
at the break. -/
theorem C7_returned_pointers (s : AllocState) (hs : Reachable s) :
    (∀ a n p s', 8 ∣ a → 4096 ≤ a → os_malloc a n s = some (some p, s') →
      8 ∣ p ∧ METADATA_SIZE ≤ p ∧
        (p - METADATA_SIZE) ∈ (s'.used ++ s'.mapped).map Block.addr) ∧
    (∀ a m k p s', 8 ∣ a → 4096 ≤ a → os_calloc a m k s = some (some p, s') →
      8 ∣ p ∧ METADATA_SIZE ≤ p ∧
        (p - METADATA_SIZE) ∈ (s'.used ++ s'.mapped).map Block.addr) ∧
    (∀ a q n p s', 8 ∣ a → 4096 ≤ a →
      (∀ x ∈ s.free, ∀ y ∈ s.used ++ s.mapped, x.addr ≠ y.addr) →
      (∀ b ∈ s.used ++ s.free, b.addr + METADATA_SIZE + b.size ≤ s.brk) →
      (∀ b ∈ s.mapped, b.addr ≠ s.brk) →
      (∀ b ∈ s.used ++ s.free ++ s.mapped, b.addr ≠ a) →
      os_realloc a q n s = some (some p, s') →
      8 ∣ p ∧ METADATA_SIZE ≤ p ∧
        (p - METADATA_SIZE) ∈ (s'.used ++ s'.mapped).map Block.addr) := by
  have hinv := reachable_inv s hs
  exact ⟨fun a n p s' h8 h4 hr => os_malloc_ptr a n s p s' hinv h8 h4 hr,
         fun a m k p s' h8 h4 hr => os_calloc_ptr a m k s p s' hinv h8 h4 hr,
         fun a q n p s' h8 h4 hdisj hbound hmb hfresh hr =>
           os_realloc_ptr_mem a q n s p s' hinv h8 h4 hdisj hbound hmb hfresh hr⟩

theorem C7_returned_pointers_witness :
    (8 ∣ 4128 ∧ METADATA_SIZE ≤ 4128 ∧
      (4128 - METADATA_SIZE) ∈
        (((⟨[⟨4096, 104, Status.alloc⟩], [⟨4232, 130904, Status.free⟩], [],
            135168⟩ : AllocState)).used ++
         ((⟨[⟨4096, 104, Status.alloc⟩], [⟨4232, 130904, Status.free⟩], [],
            135168⟩ : AllocState)).mapped).map Block.addr) ∧
    (8 ∣ 4128 ∧ METADATA_SIZE ≤ 4128 ∧
      (4128 - METADATA_SIZE) ∈
        (((⟨[⟨4096, 104, Status.alloc⟩], [⟨4232, 130904, Status.free⟩], [],
            135168⟩ : AllocState)).used ++
         ((⟨[⟨4096, 104, Status.alloc⟩], [⟨4232, 130904, Status.free⟩], [],
            135168⟩ : AllocState)).mapped).map Block.addr) :=
  ⟨(C7_returned_pointers initState Reachable.init).1 8192 100 4128
    ⟨[⟨4096, 104, Status.alloc⟩], [⟨4232, 130904, Status.free⟩], [], 135168⟩
    (by decide) (by decide) (by decide),
   (C7_returned_pointers initState Reachable.init).2.2 8192 0 100 4128
    ⟨[⟨4096, 104, Status.alloc⟩], [⟨4232, 130904, Status.free⟩], [], 135168⟩
    (by decide) (by decide) (by decide) (by decide) (by decide) (by decide)
    (by decide)⟩
